import Mathlib

/-!
# Virtual memory of the RISC-V functional simulator

A shallow embedding of `include/virtual_mem.hpp` (classes `PhysAddr` and
`VirtualMem`) together with the properties of its address translation, demand
allocation and ELF segment loading.

Conventions of the embedding.

* A `PhysPage*` is a natural number: the index of the page object in the list
  `heap` of all `PhysPage` objects created so far.  `nullptr` is `none`.
  `new PhysPage` appends to the heap, so the pointer it returns is fresh.
* Every operation returns an `Option`.  The value `none` means that the C++
  call does not return normally: an out-of-range `operator[]` on the page
  table, a dereference of a null or dangling page pointer, a `memcpy` outside
  the page buffer or from a buffer that is not a mapping, or a failed `assert`.
  The offsets at which `memcpy` reads the mapped file are not checked.
* `size_t` is 64 bits wide; arithmetic on it is taken modulo `2 ^ 64`.  The
  width of `VirtAddr` comes from `config.h`, which is not among the sources, so
  it is the parameter `Config.addrBits`.
* Host outcomes (whether `new` returns a page, what `fstat` and `mmap` return)
  are explicit arguments of the operations.
-/

namespace risc

/-! ## Configuration (`config.h`) -/

/-- Build-time parameters read from `config.h`: the number of offset bits of a
virtual address, the default size of the address space and the bit width of the
type `VirtAddr`. -/
structure Config where
  kNOffsetBits : Nat
  kVirtMemSize : Nat
  addrBits : Nat

/-- Modelled from the spec: the constant `kPhysPageSize` of `config.h`, a power
of two whose logarithm is the offset bit count. -/
def Config.kPhysPageSize (c : Config) : Nat := 2 ^ c.kNOffsetBits

/-- Modelled from the spec: the constant `kOffsetMask` of `config.h`, derived
from the page size as `mask = page_size - 1`. -/
def Config.kOffsetMask (c : Config) : Nat := c.kPhysPageSize - 1

/-- The modulus of `size_t` arithmetic. -/
def sizeMod : Nat := 2 ^ 64

/-- Conversion of an integer to the type `VirtAddr`. -/
def Config.toVirtAddr (c : Config) (x : Nat) : Nat := x % 2 ^ c.addrBits

/-- Sanity conditions on the configuration: a page fits the address type and
the address type fits `size_t`. -/
def Config.wf (c : Config) : Prop := c.kNOffsetBits < c.addrBits ∧ c.addrBits ≤ 64

/-! ## Physical pages (`phys_page.hpp`) -/

/-- Modelled from the spec: the class `PhysPage` of `phys_page.hpp`, a
fixed-size byte buffer.  The field `memory_` gives the byte stored at each
offset of the buffer. -/
structure PhysPage where
  size_ : Nat
  memory_ : Nat → Nat

/-- Modelled from the spec: the constructor `PhysPage(size)`; pages are
zero-initialised on allocation. -/
def PhysPage.create (size : Nat) : PhysPage :=
  { size_ := size, memory_ := fun _ => 0 }

/-- Little-endian value of the `size` bytes of `mem` that start at `offset`. -/
def loadBytes (mem : Nat → Nat) (offset : Nat) : Nat → Nat
  | 0 => 0
  | size + 1 => mem offset + 256 * loadBytes mem (offset + 1) size

/-- The buffer `mem` after the `size` low bytes of `value` have been stored at
`offset`, least significant byte first. -/
def storeBytes (mem : Nat → Nat) (offset size value : Nat) : Nat → Nat :=
  fun i => if offset ≤ i ∧ i < offset + size then value / 256 ^ (i - offset) % 256 else mem i

/-- Modelled from the spec: `PhysPage::read`, the bounds-checked read of
`size` bytes at `offset`; it fails when `offset + size` exceeds the page. -/
def PhysPage.read (p : PhysPage) (offset size : Nat) : Option Nat :=
  if offset + size > p.size_ then none else some (loadBytes p.memory_ offset size)

/-- Modelled from the spec: `PhysPage::write`, the bounds-checked write of the
`size` bytes of `value` at `offset`; it fails when `offset + size` exceeds the
page and then leaves the page as it was. -/
def PhysPage.write (p : PhysPage) (offset size value : Nat) : Bool × PhysPage :=
  if offset + size > p.size_ then (false, p)
  else (true, { p with memory_ := storeBytes p.memory_ offset size value })

/-! ## `PhysAddr` -/

/-- The class `PhysAddr`: a page pointer and an offset inside the page. -/
structure PhysAddr where
  page_ : Option Nat
  offset_ : Nat
deriving DecidableEq

/-- The default-constructed `PhysAddr()`: null page, offset zero. -/
def PhysAddr.zero : PhysAddr := { page_ := none, offset_ := 0 }

/-- The comparison `PhysAddr::operator==`. -/
def PhysAddr.eq (a rhs : PhysAddr) : Bool :=
  if a.offset_ = rhs.offset_ ∧ a.page_ = rhs.page_ then true else false

/-- The test `PhysAddr::is_zero`. -/
def PhysAddr.is_zero (a : PhysAddr) : Bool :=
  if a.eq PhysAddr.zero then true else false

/-! ## `VirtualMem` -/

/-- The class `VirtualMem`: the page table, the list of owned pages, and the
host heap holding the page objects the pointers refer to. -/
structure VirtualMem where
  page_table_ : List (Option Nat)
  alloc_pages_ : List Nat
  heap : List PhysPage

/-- The constructor `VirtualMem(virt_mem_size)`: a table of
`virt_mem_size / kPhysPageSize` null slots and no page. -/
def VirtualMem.create (c : Config) (virt_mem_size : Nat) : VirtualMem :=
  { page_table_ := List.replicate (virt_mem_size / c.kPhysPageSize) none
    alloc_pages_ := []
    heap := [] }

/-- The table index that `allocate_page` and `get_phys_addr` compute from a
virtual address: `(virt_address - offset) >> kNOffsetBits` with
`offset = virt_address & kOffsetMask`. -/
def index_table (c : Config) (virt_address : Nat) : Nat :=
  (virt_address - (virt_address &&& c.kOffsetMask)) >>> c.kNOffsetBits

/-- The method `VirtualMem::allocate_page`.  The argument `new_ok` tells whether
`new PhysPage` yields a page (`true`) or a null pointer (`false`), the outcome
that the test `page == nullptr` of the source handles by returning `false`.
Whether the allocation can yield a null pointer is decided by `phys_page.hpp`
(an allocation function of the class) and by the build, which are not among the
sources; the outcome is kept because the source handles it and because the
specification has an allocation failure propagated as the failure of the
operation.  (An allocation that throws instead does not return; such a call has
no result and is none of the two cases.) -/
def allocate_page (c : Config) (vm : VirtualMem) (virt_address : Nat) (new_ok : Bool) :
    Option (Bool × VirtualMem) :=
  match vm.page_table_[index_table c virt_address]? with
  | none => none
  | some (some _) => some (true, vm)
  | some none =>
    if new_ok then
      some (true,
        { page_table_ := vm.page_table_.set (index_table c virt_address) (some vm.heap.length)
          alloc_pages_ := vm.alloc_pages_ ++ [vm.heap.length]
          heap := vm.heap ++ [PhysPage.create c.kPhysPageSize] })
    else some (false, vm)

/-- The method `VirtualMem::get_phys_addr`. -/
def get_phys_addr (c : Config) (vm : VirtualMem) (virt_address : Nat) : Option PhysAddr :=
  match vm.page_table_[index_table c virt_address]? with
  | none => none
  | some none => some PhysAddr.zero
  | some (some page) =>
    some { page_ := some page, offset_ := virt_address &&& c.kOffsetMask }

/-- The method `VirtualMem::count_pages`, on `size_t` values.  The result is
`none` when the assertion of the function fails. -/
def count_pages (c : Config) (start end_ : Nat) : Option Nat :=
  let remainder_start := start % c.kPhysPageSize
  let remainder_end := end_ % c.kPhysPageSize
  if start / c.kPhysPageSize = end_ / c.kPhysPageSize then some 1
  else
    let occupied₁ := if remainder_start ≠ 0 then 1 else 0
    let temp_start :=
      if remainder_start ≠ 0 then (start + (c.kPhysPageSize - remainder_start)) % sizeMod
      else start
    let occupied₂ := if remainder_end ≠ 0 then occupied₁ + 1 else occupied₁
    let temp_end := if remainder_end ≠ 0 then end_ - remainder_end else end_
    let middle := (temp_end + sizeMod - temp_start) % sizeMod
    if middle % c.kPhysPageSize = 0 then
      some ((occupied₂ + middle / c.kPhysPageSize) % sizeMod)
    else none

/-- The method `VirtualMem::next_page_offset`. -/
def next_page_offset (c : Config) (address : Nat) : Nat :=
  c.kPhysPageSize - address % c.kPhysPageSize

/-- The method `VirtualMem::read`.  The argument `value` is the register the
out-pointer refers to (`none` for `nullptr`); the result carries the status,
the register after the call and the address space after the call. -/
def read (c : Config) (vm : VirtualMem) (virt_address size : Nat) (value : Option Nat) :
    Option (Bool × Option Nat × VirtualMem) :=
  match value with
  | none => some (false, none, vm)
  | some old =>
    match get_phys_addr c vm virt_address with
    | none => none
    | some phys_addr =>
      if phys_addr.is_zero then some (false, some old, vm)
      else
        match phys_addr.page_ with
        | none => none
        | some p =>
          match vm.heap[p]? with
          | none => none
          | some page =>
            match page.read phys_addr.offset_ size with
            | none => some (false, some old, vm)
            | some v => some (true, some v, vm)

/-- The call `phys_addr.page_->write(phys_addr.offset_, size, value)` at the
end of `VirtualMem::write`. -/
def page_write (vm : VirtualMem) (phys_addr : PhysAddr) (size value : Nat) :
    Option (Bool × VirtualMem) :=
  match phys_addr.page_ with
  | none => none
  | some p =>
    match vm.heap[p]? with
    | none => none
    | some page =>
      some ((page.write phys_addr.offset_ size value).1,
        { vm with heap := vm.heap.set p (page.write phys_addr.offset_ size value).2 })

/-- The method `VirtualMem::write`.  The argument `new_ok` is the outcome of the
`new PhysPage` the call may perform. -/
def write (c : Config) (vm : VirtualMem) (virt_address size value : Nat) (new_ok : Bool) :
    Option (Bool × VirtualMem) :=
  match get_phys_addr c vm virt_address with
  | none => none
  | some phys_addr =>
    if phys_addr.is_zero then
      match allocate_page c vm virt_address new_ok with
      | none => none
      | some (false, vm₁) => some (false, vm₁)
      | some (true, vm₁) =>
        match get_phys_addr c vm₁ virt_address with
        | none => none
        | some phys_addr₁ => page_write vm₁ phys_addr₁ size value
    else page_write vm phys_addr size value

/-! ## The segment loader -/

/-- The fields of a `GElf_Phdr` that `load_elf_file` reads (64-bit values). -/
structure GElf_Phdr where
  p_vaddr : Nat
  p_memsz : Nat
  p_filesz : Nat
  p_offset : Nat

/-- The three possible results of the `mmap` call: `NULL`, the error value
`MAP_FAILED`, or a readable mapping of the file. -/
inductive MmapResult where
  | null
  | map_failed
  | mapped
deriving DecidableEq

/-- The host side of `load_elf_file`: whether `fstat` reports an error, the file
size it reports, what `mmap` returns, and the bytes of the mapped buffer:
`data i` is the byte read at offset `i` of `elf_file_buffer` (the bytes of the
file, and past its end whatever the host yields there). -/
structure ElfFile where
  fstat_err : Bool
  st_size : Nat
  mmap_ret : MmapResult
  data : Nat → Nat

/-- One `memcpy` performed by the loader: the destination page and offset, the
source offset in the mapped file and the number of bytes. -/
structure Memcpy where
  page : Nat
  dst : Nat
  src : Nat
  len : Nat
deriving DecidableEq

/-- The buffer `mem` after `n` bytes of `data`, starting at `src`, have been
copied to offset `dst`. -/
def copyBytes (mem : Nat → Nat) (dst : Nat) (data : Nat → Nat) (src n : Nat) : Nat → Nat :=
  fun i => if dst ≤ i ∧ i < dst + n then data (src + (i - dst)) else mem i

/-- The statement `memcpy(page_->memory_ + dst, elf_file_buffer + src, n)`.
The destination must be a live page with room for `n` bytes at `dst` and the
buffer must be a mapping; the source offset is not compared with the size of
the file, as no statement of `load_elf_file` does so. -/
def memcpy_page (vm : VirtualMem) (file : ElfFile) (page_ : Option Nat) (dst src n : Nat) :
    Option VirtualMem :=
  match page_ with
  | none => none
  | some p =>
    match vm.heap[p]? with
    | none => none
    | some page =>
      if file.mmap_ret ≠ MmapResult.mapped then none
      else if dst + n > page.size_ then none
      else
        some { vm with
          heap := vm.heap.set p { page with memory_ := copyBytes page.memory_ dst file.data src n } }

/-- The address `pseg_start + x` for a 64-bit `x`, converted to `VirtAddr`. -/
def seg_addr (c : Config) (pseg_start x : Nat) : Nat :=
  c.toVirtAddr ((pseg_start + x) % sizeMod)

/-- The allocation loop of `load_elf_file` ("memory allocation"): `n` iterations
starting at `page_idx`.  The outcome of the `new` performed when the heap holds
`k` pages is `new_ok k`. -/
def size_pass (c : Config) (new_ok : Nat → Bool) (pseg_start : Nat) :
    Nat → Nat → VirtualMem → Option (Bool × VirtualMem)
  | 0, _, vm => some (true, vm)
  | n + 1, page_idx, vm =>
    match get_phys_addr c vm (seg_addr c pseg_start (page_idx * c.kPhysPageSize % sizeMod)) with
    | none => none
    | some phys_addr =>
      if phys_addr.is_zero then
        match allocate_page c vm (seg_addr c pseg_start (page_idx * c.kPhysPageSize % sizeMod))
            (new_ok vm.heap.length) with
        | none => none
        | some (false, vm₁) => some (false, vm₁)
        | some (true, vm₁) => size_pass c new_ok pseg_start n (page_idx + 1) vm₁
      else size_pass c new_ok pseg_start n (page_idx + 1) vm

/-- The copy loop of `load_elf_file` ("loading elf to allocated memory"): `n`
iterations starting at `page_idx`.  It returns the file cursor and the address
space after the loop, and the copies performed. -/
def copy_loop (c : Config) (file : ElfFile) (pseg_start : Nat) :
    Nat → Nat → Nat → Nat → VirtualMem → Option (Nat × VirtualMem × List Memcpy)
  | 0, _, _, elf_file_offset, vm => some (elf_file_offset, vm, [])
  | n + 1, page_idx, virt_page_offset, elf_file_offset, vm =>
    match get_phys_addr c vm (seg_addr c pseg_start (page_idx * c.kPhysPageSize % sizeMod)) with
    | none => none
    | some phys_addr =>
      match memcpy_page vm file phys_addr.page_ virt_page_offset elf_file_offset
          (next_page_offset c virt_page_offset) with
      | none => none
      | some vm₁ =>
        match copy_loop c file pseg_start n (page_idx + 1) 0
            ((elf_file_offset + next_page_offset c virt_page_offset) % sizeMod) vm₁ with
        | none => none
        | some (off, vm₂, copies) =>
          some (off, vm₂,
            { page := phys_addr.page_.getD 0, dst := virt_page_offset, src := elf_file_offset,
              len := next_page_offset c virt_page_offset } :: copies)

/-- The second half of the loop body of `load_elf_file`: the copy of the on-disk
part of one segment into the pages of the address space. -/
def copy_pass (c : Config) (file : ElfFile) (vm : VirtualMem) (ph : GElf_Phdr) :
    Option (VirtualMem × List Memcpy) :=
  let pseg_start := c.toVirtAddr ph.p_vaddr
  match count_pages c pseg_start (seg_addr c pseg_start ph.p_filesz) with
  | none => none
  | some occupied_pages =>
    match get_phys_addr c vm pseg_start with
    | none => none
    | some first =>
      if occupied_pages > 1 then
        match copy_loop c file pseg_start (occupied_pages - 1) 0 first.offset_ ph.p_offset vm with
        | none => none
        | some (elf_file_offset, vm₁, copies) =>
          match get_phys_addr c vm₁ (seg_addr c pseg_start ph.p_filesz) with
          | none => none
          | some phys_addr =>
            match memcpy_page vm₁ file phys_addr.page_ 0 elf_file_offset phys_addr.offset_ with
            | none => none
            | some vm₂ =>
              some (vm₂, copies ++
                [{ page := phys_addr.page_.getD 0, dst := 0, src := elf_file_offset,
                   len := phys_addr.offset_ }])
      else
        match memcpy_page vm file first.page_ first.offset_ ph.p_offset ph.p_filesz with
        | none => none
        | some vm₁ =>
          some (vm₁,
            [{ page := first.page_.getD 0, dst := first.offset_, src := ph.p_offset,
               len := ph.p_filesz }])

/-- The loop body of `load_elf_file` for one program header. -/
def load_segment (c : Config) (file : ElfFile) (new_ok : Nat → Bool) (vm : VirtualMem)
    (ph : GElf_Phdr) : Option (Bool × VirtualMem × List Memcpy) :=
  let pseg_start := c.toVirtAddr ph.p_vaddr
  let pseg_size := c.toVirtAddr ph.p_memsz
  match count_pages c pseg_start (c.toVirtAddr (pseg_start + pseg_size)) with
  | none => none
  | some occupied_pages =>
    match size_pass c new_ok pseg_start occupied_pages 0 vm with
    | none => none
    | some (false, vm₁) => some (false, vm₁, [])
    | some (true, vm₁) =>
      match copy_pass c file vm₁ ph with
      | none => none
      | some (vm₂, copies) => some (true, vm₂, copies)

/-- The loop of `load_elf_file` over the program headers: `n` iterations
starting at header `i`. -/
def load_segments (c : Config) (file : ElfFile) (new_ok : Nat → Bool) (phdrs : List GElf_Phdr) :
    Nat → Nat → VirtualMem → Option (Bool × VirtualMem × List Memcpy)
  | 0, _, vm => some (true, vm, [])
  | n + 1, i, vm =>
    match phdrs[i]? with
    | none => none
    | some ph =>
      match load_segment c file new_ok vm ph with
      | none => none
      | some (false, vm₁, copies) => some (false, vm₁, copies)
      | some (true, vm₁, copies) =>
        match load_segments c file new_ok phdrs n (i + 1) vm₁ with
        | none => none
        | some (status, vm₂, copies₂) => some (status, vm₂, copies ++ copies₂)

/-- The method `VirtualMem::load_elf_file`.  The file descriptor is represented
by the host outcomes `file`, the header `ehdr` by its field `e_phnum`.  The
result carries the status, the address space after the call and the list of
the `memcpy` calls performed, in order. -/
def load_elf_file (c : Config) (vm : VirtualMem) (file : ElfFile) (phdrs : List GElf_Phdr)
    (e_phnum : Nat) (new_ok : Nat → Bool) : Option (Bool × VirtualMem × List Memcpy) :=
  if file.fstat_err then some (false, vm, [])
  else if file.mmap_ret = MmapResult.null then some (false, vm, [])
  else load_segments c file new_ok phdrs e_phnum 0 vm

/-- The byte stored at a virtual address: the byte at the resolved offset of
the resolved page, or `none` when the address is not mapped. -/
def byte_at (c : Config) (vm : VirtualMem) (virt_address : Nat) : Option Nat :=
  match get_phys_addr c vm virt_address with
  | none => none
  | some phys_addr =>
    match phys_addr.page_ with
    | none => none
    | some p =>
      match vm.heap[p]? with
      | none => none
      | some page => some (page.memory_ phys_addr.offset_)

/-! ## Auxiliary predicates

Relations between states and invariants of states used to state and prove the
properties below. -/

/-- The table and the ownership list of `vm₂` are those of `vm₁`, and the heap
holds the same number of pages. -/
def SameShape (vm₁ vm₂ : VirtualMem) : Prop :=
  vm₂.page_table_ = vm₁.page_table_ ∧ vm₂.alloc_pages_ = vm₁.alloc_pages_ ∧
    vm₂.heap.length = vm₁.heap.length

/-- The state `vm₂` is `vm₁` with one fresh zero page installed in slot `idx`,
which was empty. -/
def Installed (c : Config) (idx : Nat) (vm₁ vm₂ : VirtualMem) : Prop :=
  vm₁.page_table_[idx]? = some none ∧
    vm₂.page_table_ = vm₁.page_table_.set idx (some vm₁.heap.length) ∧
    vm₂.alloc_pages_ = vm₁.alloc_pages_ ++ [vm₁.heap.length] ∧
    vm₂.heap = vm₁.heap ++ [PhysPage.create c.kPhysPageSize]

/-- The state `vm₂` is reached from `vm₁` by installing fresh pages in empty
slots, one after the other, and by nothing else. -/
inductive Allocated (c : Config) : VirtualMem → VirtualMem → Prop where
  | refl (vm : VirtualMem) : Allocated c vm vm
  | step {idx : Nat} {vm₁ vm₂ vm₃ : VirtualMem} :
      Installed c idx vm₁ vm₂ → Allocated c vm₂ vm₃ → Allocated c vm₁ vm₃

/-- The consistency of the page table, the ownership list and the heap: the
ownership list enumerates the pages of the heap, every table entry points into
the heap, no page is referenced by two slots and every page is referenced. -/
structure VirtualMem.Inv (vm : VirtualMem) : Prop where
  alloc_eq : vm.alloc_pages_ = List.range vm.heap.length
  table_lt : ∀ i p : Nat, vm.page_table_[i]? = some (some p) → p < vm.heap.length
  table_inj : ∀ i j p : Nat, vm.page_table_[i]? = some (some p) →
    vm.page_table_[j]? = some (some p) → i = j
  table_surj : ∀ p : Nat, p < vm.heap.length → ∃ i : Nat, vm.page_table_[i]? = some (some p)

/-- The states an address space can be in: those reached from a freshly
constructed one by calls of `read`, `write` and `load_elf_file` that return. -/
inductive Reachable (c : Config) : VirtualMem → Prop where
  | create (virt_mem_size : Nat) : Reachable c (VirtualMem.create c virt_mem_size)
  | read {vm vm₁ : VirtualMem} {a w : Nat} {out out₁ : Option Nat} {st : Bool} :
      Reachable c vm → read c vm a w out = some (st, out₁, vm₁) → Reachable c vm₁
  | write {vm vm₁ : VirtualMem} {a w v : Nat} {new_ok st : Bool} :
      Reachable c vm → write c vm a w v new_ok = some (st, vm₁) → Reachable c vm₁
  | load {vm vm₁ : VirtualMem} {file : ElfFile} {phdrs : List GElf_Phdr} {e_phnum : Nat}
      {new_ok : Nat → Bool} {st : Bool} {copies : List Memcpy} :
      Reachable c vm →
      load_elf_file c vm file phdrs e_phnum new_ok = some (st, vm₁, copies) → Reachable c vm₁

/-- The byte at offset `o` of the page object behind pointer `q`. -/
def heap_byte (vm : VirtualMem) (q o : Nat) : Option Nat :=
  (vm.heap[q]?).map (fun page => page.memory_ o)

/-- Every page of the heap is as the constructor left it: of the configured
size and filled with zeros. -/
def ZeroHeap (c : Config) (vm : VirtualMem) : Prop :=
  ∀ (p : Nat) (page : PhysPage), vm.heap[p]? = some page → page = PhysPage.create c.kPhysPageSize

/-- The value of the local variable `temp_start` of `count_pages` after the
adjustment for a non-aligned start. -/
def count_pages_temp_start (c : Config) (start : Nat) : Nat :=
  if start % c.kPhysPageSize ≠ 0 then
    (start + (c.kPhysPageSize - start % c.kPhysPageSize)) % sizeMod
  else start

/-- The value of the local variable `temp_end` of `count_pages` after the
adjustment for a non-aligned end. -/
def count_pages_temp_end (c : Config) (end_ : Nat) : Nat :=
  if end_ % c.kPhysPageSize ≠ 0 then end_ - end_ % c.kPhysPageSize else end_

/-- The expression `(temp_end - temp_start) % kPhysPageSize` that `count_pages`
asserts to be zero, in `size_t` arithmetic. -/
def count_pages_assert_value (c : Config) (start end_ : Nat) : Nat :=
  ((count_pages_temp_end c end_ + sizeMod - count_pages_temp_start c start) % sizeMod)
    % c.kPhysPageSize

/-- The three public operations of `VirtualMem`, with their arguments and the
host outcomes they depend on. -/
inductive Op where
  | read (virt_address size : Nat) (value : Option Nat)
  | write (virt_address size value : Nat) (new_ok : Bool)
  | load_elf_file (file : ElfFile) (phdrs : List GElf_Phdr) (e_phnum : Nat)
      (new_ok : Nat → Bool)

/-- The address space after an operation, whatever its status; `none` when the
call does not return. -/
def Op.run (c : Config) (vm : VirtualMem) : Op → Option VirtualMem
  | Op.read virt_address size value =>
    (risc.read c vm virt_address size value).map (fun r => r.2.2)
  | Op.write virt_address size value new_ok =>
    (risc.write c vm virt_address size value new_ok).map (fun r => r.2)
  | Op.load_elf_file file phdrs e_phnum new_ok =>
    (risc.load_elf_file c vm file phdrs e_phnum new_ok).map (fun r => r.2.1)

/-- The state `vm₂` extends `vm₁`: the table has the same length, every
non-empty slot of `vm₁` holds the same page in `vm₂`, and the ownership list of
`vm₂` is that of `vm₁` with entries appended. -/
def Extends (vm₁ vm₂ : VirtualMem) : Prop :=
  vm₂.page_table_.length = vm₁.page_table_.length ∧
  (∀ i p : Nat, vm₁.page_table_[i]? = some (some p) → vm₂.page_table_[i]? = some (some p)) ∧
  ∃ l, vm₂.alloc_pages_ = vm₁.alloc_pages_ ++ l

/-- The states of an address space constructed with size `virt_mem_size`. -/
inductive ReachableFrom (c : Config) (virt_mem_size : Nat) : VirtualMem → Prop where
  | create : ReachableFrom c virt_mem_size (VirtualMem.create c virt_mem_size)
  | step {vm vm₁ : VirtualMem} {op : Op} :
      ReachableFrom c virt_mem_size vm → op.run c vm = some vm₁ →
      ReachableFrom c virt_mem_size vm₁

/-- A small configuration used for concrete runs: pages of four bytes and
32-bit addresses. -/
def cfgSmall : Config := { kNOffsetBits := 2, kVirtMemSize := 16, addrBits := 32 }

/-- The configuration of the concrete scenarios: pages of 4096 bytes, 32-bit
addresses. -/
def cfg4096 : Config := { kNOffsetBits := 12, kVirtMemSize := 16384, addrBits := 32 }

/-- A scaled-down configuration in which an address space can cover the whole
range of the address type: pages of four bytes and 4-bit addresses, so that an
address space of 16 bytes reaches the top of the address type (as one of 4 GiB
does with 32-bit addresses). -/
def cfgTiny : Config := { kNOffsetBits := 2, kVirtMemSize := 16, addrBits := 4 }

/-- A file of twelve bytes, all equal to one, that `fstat` and `mmap` handle
without error. -/
def fileOnes : ElfFile :=
  { fstat_err := false, st_size := 12, mmap_ret := MmapResult.mapped, data := fun _ => 1 }

/-- A file of 9000 bytes, all equal to one, that `fstat` and `mmap` handle
without error. -/
def fileNineThousand : ElfFile :=
  { fstat_err := false, st_size := 9000, mmap_ret := MmapResult.mapped, data := fun _ => 1 }

/-- A file of 8192 bytes, all equal to one, that `fstat` and `mmap` handle
without error. -/
def fileTwoPages : ElfFile :=
  { fstat_err := false, st_size := 8192, mmap_ret := MmapResult.mapped, data := fun _ => 1 }

/-- A file of 8192 bytes for which `fstat` succeeds and `mmap` fails, returning
`MAP_FAILED`. -/
def fileMapFailed : ElfFile :=
  { fstat_err := false, st_size := 8192, mmap_ret := MmapResult.map_failed, data := fun _ => 1 }

/-- A file of twelve bytes, byte `i` holding the value `i + 1`, that `fstat` and
`mmap` handle without error. -/
def fileCounting : ElfFile :=
  { fstat_err := false, st_size := 12, mmap_ret := MmapResult.mapped, data := fun i => i + 1 }

/-! # Lemmas -/

/-! ## Address arithmetic -/

theorem Config.kPhysPageSize_pos (c : Config) : 0 < c.kPhysPageSize := by
  unfold Config.kPhysPageSize
  positivity

theorem and_kOffsetMask (c : Config) (a : Nat) : a &&& c.kOffsetMask = a % c.kPhysPageSize := by
  unfold Config.kOffsetMask Config.kPhysPageSize
  exact Nat.and_pow_two_sub_one_eq_mod a c.kNOffsetBits

theorem index_table_eq_div (c : Config) (a : Nat) : index_table c a = a / c.kPhysPageSize := by
  unfold index_table
  rw [and_kOffsetMask, Nat.shiftRight_eq_div_pow]
  show (a - a % c.kPhysPageSize) / c.kPhysPageSize = a / c.kPhysPageSize
  have hP := c.kPhysPageSize_pos
  have h : a - a % c.kPhysPageSize = c.kPhysPageSize * (a / c.kPhysPageSize) := by
    have := Nat.div_add_mod a c.kPhysPageSize
    omega
  rw [h, Nat.mul_div_cancel_left _ hP]

/-! ## Bytes of a page -/

theorem loadBytes_congr (m₁ m₂ : Nat → Nat) (size offset : Nat)
    (h : ∀ i, offset ≤ i → i < offset + size → m₁ i = m₂ i) :
    loadBytes m₁ offset size = loadBytes m₂ offset size := by
  induction size generalizing offset with
  | zero => rfl
  | succ n ih =>
    simp only [loadBytes]
    rw [h offset (le_refl _) (by omega), ih (offset + 1) (fun i h₁ h₂ => h i (by omega) (by omega))]

theorem loadBytes_storeBytes (mem : Nat → Nat) (offset size value : Nat) :
    loadBytes (storeBytes mem offset size value) offset size = value % 256 ^ size := by
  induction size generalizing offset value with
  | zero => simp [loadBytes, Nat.mod_one]
  | succ n ih =>
    simp only [loadBytes]
    have h₁ : storeBytes mem offset (n + 1) value offset = value % 256 := by
      simp [storeBytes]
    have h₂ : loadBytes (storeBytes mem offset (n + 1) value) (offset + 1) n
        = loadBytes (storeBytes mem (offset + 1) n (value / 256)) (offset + 1) n := by
      apply loadBytes_congr
      intro i hi₁ hi₂
      have e : i - offset = (i - (offset + 1)) + 1 := by omega
      simp only [storeBytes]
      rw [if_pos ⟨by omega, by omega⟩, if_pos ⟨hi₁, hi₂⟩, e, pow_succ, Nat.mul_comm,
        ← Nat.div_div_eq_div_mul]
    rw [h₁, h₂, ih, pow_succ, Nat.mul_comm (256 ^ n) 256, Nat.mod_mul]

/-! ## Translation, allocation and `write` -/

theorem PhysAddr.is_zero_zero : PhysAddr.zero.is_zero = true := by decide

theorem PhysAddr.is_zero_mapped (p offset : Nat) :
    PhysAddr.is_zero { page_ := some p, offset_ := offset } = false := by
  simp [PhysAddr.is_zero, PhysAddr.eq, PhysAddr.zero]

theorem get_phys_addr_of_empty {c : Config} {vm : VirtualMem} {a : Nat}
    (h : vm.page_table_[index_table c a]? = some none) :
    get_phys_addr c vm a = some PhysAddr.zero := by
  simp [get_phys_addr, h]

theorem get_phys_addr_of_mapped {c : Config} {vm : VirtualMem} {a p : Nat}
    (h : vm.page_table_[index_table c a]? = some (some p)) :
    get_phys_addr c vm a = some { page_ := some p, offset_ := a &&& c.kOffsetMask } := by
  simp [get_phys_addr, h]

theorem get_phys_addr_cases {c : Config} {vm : VirtualMem} {a : Nat} {pa : PhysAddr}
    (h : get_phys_addr c vm a = some pa) :
    (vm.page_table_[index_table c a]? = some none ∧ pa = PhysAddr.zero) ∨
    ∃ p, vm.page_table_[index_table c a]? = some (some p) ∧
      pa = { page_ := some p, offset_ := a &&& c.kOffsetMask } := by
  unfold get_phys_addr at h
  split at h
  · exact absurd h (by simp)
  · next hs => exact Or.inl ⟨hs, by simpa using h.symm⟩
  · next p hs => exact Or.inr ⟨p, hs, by simpa using h.symm⟩

theorem SameShape.refl (vm : VirtualMem) : SameShape vm vm := ⟨rfl, rfl, rfl⟩

theorem SameShape.trans {vm₁ vm₂ vm₃ : VirtualMem} (h₁ : SameShape vm₁ vm₂)
    (h₂ : SameShape vm₂ vm₃) : SameShape vm₁ vm₃ :=
  ⟨h₂.1.trans h₁.1, h₂.2.1.trans h₁.2.1, h₂.2.2.trans h₁.2.2⟩

theorem allocate_page_cases {c : Config} {vm vm₁ : VirtualMem} {a : Nat} {new_ok st : Bool}
    (h : allocate_page c vm a new_ok = some (st, vm₁)) :
    (vm₁ = vm ∧ ((∃ p, vm.page_table_[index_table c a]? = some (some p)) ∧ st = true ∨
        vm.page_table_[index_table c a]? = some none ∧ new_ok = false ∧ st = false)) ∨
    (st = true ∧ new_ok = true ∧ Installed c (index_table c a) vm vm₁) := by
  unfold allocate_page at h
  split at h
  · exact absurd h (by simp)
  · next p hs =>
    simp only [Option.some.injEq, Prod.mk.injEq] at h
    exact Or.inl ⟨h.2.symm, Or.inl ⟨⟨p, hs⟩, h.1.symm⟩⟩
  · next hs =>
    cases new_ok with
    | false =>
      simp only [Bool.false_eq_true, if_false, Option.some.injEq, Prod.mk.injEq] at h
      exact Or.inl ⟨h.2.symm, Or.inr ⟨hs, rfl, h.1.symm⟩⟩
    | true =>
      simp only [if_true, Option.some.injEq, Prod.mk.injEq] at h
      refine Or.inr ⟨h.1.symm, rfl, hs, ?_, ?_, ?_⟩ <;> rw [← h.2]

theorem page_write_cases {vm vm₁ : VirtualMem} {pa : PhysAddr} {size value : Nat} {st : Bool}
    (h : page_write vm pa size value = some (st, vm₁)) :
    ∃ p page, pa.page_ = some p ∧ vm.heap[p]? = some page ∧
      st = (page.write pa.offset_ size value).1 ∧
      vm₁ = { vm with heap := vm.heap.set p (page.write pa.offset_ size value).2 } := by
  unfold page_write at h
  split at h
  · exact absurd h (by simp)
  · next p hp =>
    split at h
    · exact absurd h (by simp)
    · next page hpage =>
      simp only [Option.some.injEq, Prod.mk.injEq] at h
      exact ⟨p, page, hp, hpage, h.1.symm, h.2.symm⟩

theorem page_write_sameShape {vm vm₁ : VirtualMem} {pa : PhysAddr} {size value : Nat} {st : Bool}
    (h : page_write vm pa size value = some (st, vm₁)) : SameShape vm vm₁ := by
  obtain ⟨p, page, -, -, -, rfl⟩ := page_write_cases h
  exact ⟨rfl, rfl, by simp⟩

theorem Installed.index_lt {c : Config} {idx : Nat} {vm₁ vm₂ : VirtualMem}
    (h : Installed c idx vm₁ vm₂) : idx < vm₁.page_table_.length := by
  have := h.1
  by_contra hlt
  rw [List.getElem?_eq_none (by omega)] at this
  exact absurd this (by simp)

theorem Installed.slot {c : Config} {idx : Nat} {vm₁ vm₂ : VirtualMem}
    (h : Installed c idx vm₁ vm₂) : vm₂.page_table_[idx]? = some (some vm₁.heap.length) := by
  rw [h.2.1, List.getElem?_set_self h.index_lt]

/-- What a call of `write` does: it writes to the page already mapped at the
address, or the slot is empty and the allocation fails, or it installs one page
in the empty slot and then writes to it. -/
theorem write_cases {c : Config} {vm vm₁ : VirtualMem} {a size value : Nat} {new_ok st : Bool}
    (h : write c vm a size value new_ok = some (st, vm₁)) :
    (∃ p, vm.page_table_[index_table c a]? = some (some p) ∧
      page_write vm { page_ := some p, offset_ := a &&& c.kOffsetMask } size value
        = some (st, vm₁)) ∨
    (vm.page_table_[index_table c a]? = some none ∧ new_ok = false ∧ st = false ∧ vm₁ = vm) ∨
    (new_ok = true ∧ ∃ vm₀, Installed c (index_table c a) vm vm₀ ∧
      page_write vm₀ { page_ := some vm.heap.length, offset_ := a &&& c.kOffsetMask } size value
        = some (st, vm₁)) := by
  unfold write at h
  split at h
  · exact absurd h (by simp)
  · next pa hpa =>
    rcases get_phys_addr_cases hpa with ⟨hs, rfl⟩ | ⟨p, hs, rfl⟩
    · rw [PhysAddr.is_zero_zero] at h
      simp only [if_true] at h
      split at h
      · exact absurd h (by simp)
      · next vm₀ hal =>
        simp only [Option.some.injEq, Prod.mk.injEq] at h
        rcases allocate_page_cases hal with ⟨rfl, hc⟩ | ⟨hst, -, -⟩
        · rcases hc with ⟨⟨p, hp⟩, -⟩ | ⟨-, hok, -⟩
          · rw [hs] at hp; exact absurd hp (by simp)
          · exact Or.inr (Or.inl ⟨hs, hok, h.1.symm, h.2.symm⟩)
        · exact absurd hst (by simp)
      · next vm₀ hal =>
        rcases allocate_page_cases hal with ⟨rfl, hc⟩ | ⟨-, hok, hin⟩
        · rcases hc with ⟨⟨p, hp⟩, -⟩ | ⟨-, -, hst⟩
          · rw [hs] at hp; exact absurd hp (by simp)
          · exact absurd hst (by simp)
        · rw [get_phys_addr_of_mapped hin.slot] at h
          exact Or.inr (Or.inr ⟨hok, vm₀, hin, h⟩)
    · rw [PhysAddr.is_zero_mapped] at h
      simp only [Bool.false_eq_true, if_false] at h
      exact Or.inl ⟨p, hs, h⟩

theorem Installed.length_heap {c : Config} {idx : Nat} {vm₁ vm₂ : VirtualMem}
    (h : Installed c idx vm₁ vm₂) : vm₂.heap.length = vm₁.heap.length + 1 := by
  rw [h.2.2.2]; simp

/-- A successful page write at the page mapped at `a` is read back by `read`. -/
theorem read_after_page_write {c : Config} {vm vm₁ : VirtualMem} {a size value p : Nat}
    (hs : vm.page_table_[index_table c a]? = some (some p))
    (h : page_write vm { page_ := some p, offset_ := a &&& c.kOffsetMask } size value
      = some (true, vm₁)) (old : Nat) :
    read c vm₁ a size (some old) = some (true, some (value % 256 ^ size), vm₁) := by
  obtain ⟨q, page, hq, hpage, hst, rfl⟩ := page_write_cases h
  simp only [Option.some.injEq] at hq
  subst hq
  have hlt : p < vm.heap.length := by
    by_contra hge
    rw [List.getElem?_eq_none (by omega)] at hpage
    exact absurd hpage (by simp)
  have hb : ¬ (a &&& c.kOffsetMask) + size > page.size_ := by
    intro hgt
    simp [PhysPage.write, hgt] at hst
  have hw : page.write (a &&& c.kOffsetMask) size value
      = (true, { page with memory_ := storeBytes page.memory_ (a &&& c.kOffsetMask) size value }) := by
    simp [PhysPage.write, hb]
  dsimp only
  rw [hw]
  dsimp only
  have hg : get_phys_addr c
      { vm with heap := vm.heap.set p ({ page with
          memory_ := storeBytes page.memory_ (a &&& c.kOffsetMask) size value }) } a
      = some { page_ := some p, offset_ := a &&& c.kOffsetMask } :=
    get_phys_addr_of_mapped hs
  unfold read
  simp only [hg, PhysAddr.is_zero_mapped, Bool.false_eq_true, if_false,
    List.getElem?_set_self hlt, PhysPage.read, if_neg hb, loadBytes_storeBytes]

theorem read_after_write {c : Config} {vm vm₁ : VirtualMem} {a w v : Nat} {new_ok : Bool}
    (h : write c vm a w v new_ok = some (true, vm₁)) (old : Nat) :
    read c vm₁ a w (some old) = some (true, some (v % 256 ^ w), vm₁) := by
  rcases write_cases h with ⟨p, hs, hw⟩ | ⟨-, -, hst, -⟩ | ⟨-, vm₀, hin, hw⟩
  · exact read_after_page_write hs hw old
  · exact absurd hst (by simp)
  · exact read_after_page_write hin.slot hw old

/-- The value of `count_pages` on a range that leaves the page of `start`,
when `start ≤ end_` and `end_` is a `size_t` value. -/
theorem count_pages_of_ne (c : Config) (start end_ : Nat)
    (hne : start / c.kPhysPageSize ≠ end_ / c.kPhysPageSize) (hle : start ≤ end_)
    (hend : end_ < sizeMod) :
    count_pages c start end_
      = some ((if end_ % c.kPhysPageSize ≠ 0 then 1 else 0)
          + (end_ / c.kPhysPageSize - start / c.kPhysPageSize)) := by
  have hP := c.kPhysPageSize_pos
  generalize hPdef : c.kPhysPageSize = P at *
  have hs := Nat.div_add_mod start P
  have he := Nat.div_add_mod end_ P
  have hrs := Nat.mod_lt start hP
  have hre := Nat.mod_lt end_ hP
  have hq : start / P < end_ / P :=
    lt_of_le_of_ne (Nat.div_le_div_right hle) hne
  generalize hqs : start / P = qs at *
  generalize hqe : end_ / P = qe at *
  generalize hrs' : start % P = rs at *
  generalize hre' : end_ % P = re at *
  obtain ⟨d, rfl⟩ : ∃ d, qe = qs + 1 + d := ⟨qe - qs - 1, by omega⟩
  have e₁ : P * (qs + 1 + d) = P * qs + P + P * d := by ring
  unfold count_pages
  simp only [hPdef, hqs, hqe, hrs', hre', hne, if_false]
  by_cases h₁ : rs = 0 <;> by_cases h₂ : re = 0
  · simp only [h₁, h₂, ne_eq, not_true_eq_false, if_false]
    have hm : (end_ + sizeMod - start) % sizeMod = P * (1 + d) := by
      have : end_ + sizeMod - start = P * (1 + d) + sizeMod := by
        have : P * (1 + d) = P + P * d := by ring
        omega
      rw [this, Nat.add_mod_right, Nat.mod_eq_of_lt]
      have : P * (1 + d) = P + P * d := by ring
      omega
    rw [hm, Nat.mul_mod_right, if_pos rfl, Nat.mul_div_cancel_left _ hP, Nat.mod_eq_of_lt]
    · congr 1; omega
    · have : P * (1 + d) = P + P * d := by ring
      have : 1 + d ≤ P * (1 + d) := Nat.le_mul_of_pos_left _ hP
      omega
  · simp only [h₁, ne_eq, not_true_eq_false, if_false, h₂, not_false_eq_true, if_true]
    have hm : (end_ - re + sizeMod - start) % sizeMod = P * (1 + d) := by
      have : end_ - re + sizeMod - start = P * (1 + d) + sizeMod := by
        have : P * (1 + d) = P + P * d := by ring
        omega
      rw [this, Nat.add_mod_right, Nat.mod_eq_of_lt]
      have : P * (1 + d) = P + P * d := by ring
      omega
    rw [hm, Nat.mul_mod_right, if_pos rfl, Nat.mul_div_cancel_left _ hP, Nat.mod_eq_of_lt]
    · congr 1; omega
    · have : P * (1 + d) = P + P * d := by ring
      have : 1 + d ≤ P * (1 + d) := Nat.le_mul_of_pos_left _ hP
      omega
  · simp only [h₁, ne_eq, not_false_eq_true, if_true, h₂, not_true_eq_false, if_false]
    have hts : (start + (P - rs)) % sizeMod = P * qs + P := by
      rw [Nat.mod_eq_of_lt] <;> omega
    have hm : (end_ + sizeMod - (P * qs + P)) % sizeMod = P * d := by
      have : end_ + sizeMod - (P * qs + P) = P * d + sizeMod := by omega
      rw [this, Nat.add_mod_right, Nat.mod_eq_of_lt]
      omega
    rw [hts, hm, Nat.mul_mod_right, if_pos rfl, Nat.mul_div_cancel_left _ hP, Nat.mod_eq_of_lt]
    · congr 1; omega
    · have : d ≤ P * d := Nat.le_mul_of_pos_left _ hP
      omega
  · simp only [h₁, ne_eq, not_false_eq_true, if_true, h₂]
    have hts : (start + (P - rs)) % sizeMod = P * qs + P := by
      rw [Nat.mod_eq_of_lt] <;> omega
    have hm : (end_ - re + sizeMod - (P * qs + P)) % sizeMod = P * d := by
      have : end_ - re + sizeMod - (P * qs + P) = P * d + sizeMod := by omega
      rw [this, Nat.add_mod_right, Nat.mod_eq_of_lt]
      omega
    rw [hts, hm, Nat.mul_mod_right, if_pos rfl, Nat.mul_div_cancel_left _ hP, Nat.mod_eq_of_lt]
    · congr 1; omega
    · have : d ≤ P * d := Nat.le_mul_of_pos_left _ hP
      omega

/-! ## The consistency invariant -/

theorem VirtualMem.inv_create (c : Config) (virt_mem_size : Nat) :
    (VirtualMem.create c virt_mem_size).Inv := by
  refine ⟨rfl, ?_, ?_, ?_⟩
  · intro i p h
    simp [VirtualMem.create, List.getElem?_replicate] at h
  · intro i j p h
    simp [VirtualMem.create, List.getElem?_replicate] at h
  · intro p h
    simp [VirtualMem.create] at h

theorem VirtualMem.Inv.sameShape {vm₁ vm₂ : VirtualMem} (h : vm₁.Inv) (sh : SameShape vm₁ vm₂) :
    vm₂.Inv := by
  obtain ⟨ht, ha, hl⟩ := sh
  refine ⟨?_, ?_, ?_, ?_⟩
  · rw [ha, hl]; exact h.alloc_eq
  · rw [ht, hl]; exact h.table_lt
  · rw [ht]; exact h.table_inj
  · rw [ht, hl]; exact h.table_surj

theorem VirtualMem.Inv.installed {c : Config} {idx : Nat} {vm₁ vm₂ : VirtualMem} (h : vm₁.Inv)
    (hin : Installed c idx vm₁ vm₂) : vm₂.Inv := by
  have hlen := hin.length_heap
  have hidx := hin.index_lt
  obtain ⟨hs, ht, ha, -⟩ := hin
  have key : ∀ i p, vm₂.page_table_[i]? = some (some p) →
      (i = idx ∧ p = vm₁.heap.length) ∨ (i ≠ idx ∧ vm₁.page_table_[i]? = some (some p)) := by
    intro i p hp
    rw [ht, List.getElem?_set] at hp
    by_cases hi : idx = i
    · rw [if_pos hi, if_pos hidx] at hp
      simp only [Option.some.injEq] at hp
      exact Or.inl ⟨hi.symm, hp.symm⟩
    · rw [if_neg hi] at hp
      exact Or.inr ⟨fun e => hi e.symm, hp⟩
  refine ⟨?_, ?_, ?_, ?_⟩
  · rw [ha, hlen, List.range_succ, h.alloc_eq]
  · intro i p hp
    rcases key i p hp with ⟨-, rfl⟩ | ⟨-, hp'⟩
    · omega
    · have := h.table_lt i p hp'; omega
  · intro i j p hi hj
    rcases key i p hi with ⟨hi₁, hi₂⟩ | ⟨-, hi'⟩ <;> rcases key j p hj with ⟨hj₁, hj₂⟩ | ⟨-, hj'⟩
    · rw [hi₁, hj₁]
    · have := h.table_lt j _ hj'; omega
    · have := h.table_lt i _ hi'; omega
    · exact h.table_inj i j p hi' hj'
  · intro p hp
    by_cases hpe : p = vm₁.heap.length
    · exact ⟨idx, by rw [ht, hpe, List.getElem?_set_self hidx]⟩
    · obtain ⟨i, hi⟩ := h.table_surj p (by omega)
      refine ⟨i, ?_⟩
      have hne : idx ≠ i := by
        intro e
        rw [← e, hs] at hi
        exact absurd hi (by simp)
      rw [ht, List.getElem?_set_ne hne, hi]

theorem Allocated.append_steps {c : Config} {vm₁ vm₂ vm₃ : VirtualMem} (h₁ : Allocated c vm₁ vm₂)
    (h₂ : Allocated c vm₂ vm₃) : Allocated c vm₁ vm₃ := by
  induction h₁ with
  | refl => exact h₂
  | step hin _ ih => exact Allocated.step hin (ih h₂)

theorem VirtualMem.Inv.allocated {c : Config} {vm₁ vm₂ : VirtualMem} (h : vm₁.Inv)
    (hal : Allocated c vm₁ vm₂) : vm₂.Inv := by
  induction hal with
  | refl => exact h
  | step hin _ ih => exact ih (h.installed hin)

theorem Installed.mono {c : Config} {idx : Nat} {vm₁ vm₂ : VirtualMem}
    (hin : Installed c idx vm₁ vm₂) {i p : Nat} (h : vm₁.page_table_[i]? = some (some p)) :
    vm₂.page_table_[i]? = some (some p) := by
  have hne : idx ≠ i := by
    intro e
    have := hin.1
    rw [e, h] at this
    exact absurd this (by simp)
  rw [hin.2.1, List.getElem?_set_ne hne, h]

theorem Allocated.slot_mono {c : Config} {vm₁ vm₂ : VirtualMem} (hal : Allocated c vm₁ vm₂)
    {i p : Nat} (h : vm₁.page_table_[i]? = some (some p)) :
    vm₂.page_table_[i]? = some (some p) := by
  induction hal with
  | refl => exact h
  | step hin _ ih => exact ih (hin.mono h)

theorem allocate_page_allocated {c : Config} {vm vm₁ : VirtualMem} {a : Nat} {new_ok st : Bool}
    (h : allocate_page c vm a new_ok = some (st, vm₁)) : Allocated c vm vm₁ := by
  rcases allocate_page_cases h with ⟨rfl, -⟩ | ⟨-, -, hin⟩
  · exact Allocated.refl _
  · exact Allocated.step hin (Allocated.refl _)

/-- The allocation loop only installs pages, and when it succeeds every address
it visited is mapped. -/
theorem size_pass_spec {c : Config} {new_ok : Nat → Bool} {pseg_start : Nat} (n : Nat) :
    ∀ (page_idx : Nat) (vm vm₁ : VirtualMem) (st : Bool),
      size_pass c new_ok pseg_start n page_idx vm = some (st, vm₁) →
      Allocated c vm vm₁ ∧
      (st = true → ∀ k, page_idx ≤ k → k < page_idx + n →
        ∃ p, vm₁.page_table_[index_table c
          (seg_addr c pseg_start (k * c.kPhysPageSize % sizeMod))]? = some (some p)) := by
  induction n with
  | zero =>
    intro page_idx vm vm₁ st h
    simp only [size_pass, Option.some.injEq, Prod.mk.injEq] at h
    rw [← h.2]
    exact ⟨Allocated.refl _, fun _ k h₁ h₂ => by omega⟩
  | succ n ih =>
    intro page_idx vm vm₁ st h
    unfold size_pass at h
    split at h
    · exact absurd h (by simp)
    · next pa hpa =>
      -- the slot visited in this iteration is mapped once the iteration is over
      have step : ∀ vm₀, Allocated c vm vm₀ →
          (∃ p, vm₀.page_table_[index_table c
            (seg_addr c pseg_start (page_idx * c.kPhysPageSize % sizeMod))]? = some (some p)) →
          size_pass c new_ok pseg_start n (page_idx + 1) vm₀ = some (st, vm₁) →
          Allocated c vm vm₁ ∧
          (st = true → ∀ k, page_idx ≤ k → k < page_idx + (n + 1) →
            ∃ p, vm₁.page_table_[index_table c
              (seg_addr c pseg_start (k * c.kPhysPageSize % sizeMod))]? = some (some p)) := by
        intro vm₀ hal ⟨p, hp⟩ hrec
        obtain ⟨hal₁, hmap⟩ := ih (page_idx + 1) vm₀ vm₁ st hrec
        refine ⟨hal.append_steps hal₁, fun hst k hk₁ hk₂ => ?_⟩
        by_cases hk : k = page_idx
        · subst hk
          exact ⟨p, hal₁.slot_mono hp⟩
        · exact hmap hst k (by omega) (by omega)
      rcases get_phys_addr_cases hpa with ⟨hs, rfl⟩ | ⟨p, hs, rfl⟩
      · rw [PhysAddr.is_zero_zero] at h
        simp only [if_true] at h
        split at h
        · exact absurd h (by simp)
        · next vm₀ hal =>
          simp only [Option.some.injEq, Prod.mk.injEq] at h
          rw [← h.2, ← h.1]
          exact ⟨allocate_page_allocated hal, fun hf => absurd hf (by simp)⟩
        · next vm₀ hal =>
          rcases allocate_page_cases hal with ⟨rfl, hc⟩ | ⟨-, -, hin⟩
          · rcases hc with ⟨hp, -⟩ | ⟨-, -, hst⟩
            · exact step _ (Allocated.refl _) hp h
            · exact absurd hst (by simp)
          · exact step _ (Allocated.step hin (Allocated.refl _)) ⟨_, hin.slot⟩ h
      · rw [PhysAddr.is_zero_mapped] at h
        simp only [Bool.false_eq_true, if_false] at h
        exact step _ (Allocated.refl _) ⟨p, hs⟩ h

/-! ## The loader keeps the shape of the address space -/

theorem memcpy_page_cases {vm vm₁ : VirtualMem} {file : ElfFile} {pg : Option Nat}
    {dst src n : Nat} (h : memcpy_page vm file pg dst src n = some vm₁) :
    ∃ p page, pg = some p ∧ vm.heap[p]? = some page ∧ file.mmap_ret = MmapResult.mapped ∧
      dst + n ≤ page.size_ ∧
      vm₁ = { vm with heap := vm.heap.set p ({ page with
        memory_ := copyBytes page.memory_ dst file.data src n }) } := by
  unfold memcpy_page at h
  split at h
  · exact absurd h (by simp)
  · next p =>
    split at h
    · exact absurd h (by simp)
    · next page hpage =>
      split at h
      · exact absurd h (by simp)
      · next hm =>
        split at h
        · exact absurd h (by simp)
        · next hd =>
          simp only [Option.some.injEq] at h
          exact ⟨p, page, rfl, hpage, by simpa using hm, by omega, h.symm⟩

theorem memcpy_page_sameShape {vm vm₁ : VirtualMem} {file : ElfFile} {pg : Option Nat}
    {dst src n : Nat} (h : memcpy_page vm file pg dst src n = some vm₁) : SameShape vm vm₁ := by
  obtain ⟨p, page, -, -, -, -, rfl⟩ := memcpy_page_cases h
  exact ⟨rfl, rfl, by simp⟩

theorem copy_loop_sameShape {c : Config} {file : ElfFile} {pseg_start : Nat} (n : Nat) :
    ∀ (page_idx vpo off : Nat) (vm vm₁ : VirtualMem) (off₁ : Nat) (copies : List Memcpy),
      copy_loop c file pseg_start n page_idx vpo off vm = some (off₁, vm₁, copies) →
      SameShape vm vm₁ := by
  induction n with
  | zero =>
    intro page_idx vpo off vm vm₁ off₁ copies h
    simp only [copy_loop, Option.some.injEq, Prod.mk.injEq] at h
    rw [← h.2.1]
    exact SameShape.refl _
  | succ n ih =>
    intro page_idx vpo off vm vm₁ off₁ copies h
    unfold copy_loop at h
    split at h
    · exact absurd h (by simp)
    · split at h
      · exact absurd h (by simp)
      · next vm₀ hm =>
        split at h
        · exact absurd h (by simp)
        · next off₂ vm₂ copies₂ hrec =>
          simp only [Option.some.injEq, Prod.mk.injEq] at h
          rw [← h.2.1]
          exact (memcpy_page_sameShape hm).trans (ih _ _ _ _ _ _ _ hrec)

theorem copy_pass_sameShape {c : Config} {file : ElfFile} {vm vm₁ : VirtualMem} {ph : GElf_Phdr}
    {copies : List Memcpy} (h : copy_pass c file vm ph = some (vm₁, copies)) :
    SameShape vm vm₁ := by
  unfold copy_pass at h
  simp only at h
  split at h
  · exact absurd h (by simp)
  · split at h
    · exact absurd h (by simp)
    · split at h
      · split at h
        · exact absurd h (by simp)
        · next off₁ vm₂ copies₂ hloop =>
          split at h
          · exact absurd h (by simp)
          · split at h
            · exact absurd h (by simp)
            · next vm₃ hm =>
              simp only [Option.some.injEq, Prod.mk.injEq] at h
              rw [← h.1]
              exact (copy_loop_sameShape _ _ _ _ _ _ _ _ hloop).trans (memcpy_page_sameShape hm)
      · split at h
        · exact absurd h (by simp)
        · next vm₂ hm =>
          simp only [Option.some.injEq, Prod.mk.injEq] at h
          rw [← h.1]
          exact memcpy_page_sameShape hm

/-- The two passes behind a call of `load_segment` that returns. -/
theorem load_segment_cases {c : Config} {file : ElfFile} {new_ok : Nat → Bool}
    {vm vm₂ : VirtualMem} {ph : GElf_Phdr} {st : Bool} {copies : List Memcpy}
    (h : load_segment c file new_ok vm ph = some (st, vm₂, copies)) :
    ∃ n vm₁,
      count_pages c (c.toVirtAddr ph.p_vaddr)
        (c.toVirtAddr (c.toVirtAddr ph.p_vaddr + c.toVirtAddr ph.p_memsz)) = some n ∧
      size_pass c new_ok (c.toVirtAddr ph.p_vaddr) n 0 vm = some (st, vm₁) ∧
      ((st = false ∧ vm₂ = vm₁ ∧ copies = []) ∨
        (st = true ∧ copy_pass c file vm₁ ph = some (vm₂, copies))) := by
  unfold load_segment at h
  simp only at h
  split at h
  · exact absurd h (by simp)
  · next n hn =>
    split at h
    · exact absurd h (by simp)
    · next vm₁ hsz =>
      simp only [Option.some.injEq, Prod.mk.injEq] at h
      exact ⟨n, vm₁, hn, by rw [← h.1]; exact hsz, Or.inl ⟨h.1.symm, h.2.1.symm, h.2.2.symm⟩⟩
    · next vm₁ hsz =>
      split at h
      · exact absurd h (by simp)
      · next vm₃ copies₃ hcp =>
        simp only [Option.some.injEq, Prod.mk.injEq] at h
        refine ⟨n, vm₁, hn, by rw [← h.1]; exact hsz, Or.inr ⟨h.1.symm, ?_⟩⟩
        rw [← h.2.1, ← h.2.2]
        exact hcp

theorem load_segment_inv {c : Config} {file : ElfFile} {new_ok : Nat → Bool}
    {vm vm₂ : VirtualMem} {ph : GElf_Phdr} {st : Bool} {copies : List Memcpy}
    (hinv : vm.Inv) (h : load_segment c file new_ok vm ph = some (st, vm₂, copies)) :
    vm₂.Inv := by
  obtain ⟨n, vm₁, -, hsz, hc⟩ := load_segment_cases h
  have h₁ : vm₁.Inv := hinv.allocated (size_pass_spec n 0 vm vm₁ st hsz).1
  rcases hc with ⟨-, rfl, -⟩ | ⟨-, hcp⟩
  · exact h₁
  · exact h₁.sameShape (copy_pass_sameShape hcp)

theorem load_segments_inv {c : Config} {file : ElfFile} {new_ok : Nat → Bool}
    {phdrs : List GElf_Phdr} (n : Nat) :
    ∀ (i : Nat) (vm vm₁ : VirtualMem) (st : Bool) (copies : List Memcpy), vm.Inv →
      load_segments c file new_ok phdrs n i vm = some (st, vm₁, copies) → vm₁.Inv := by
  induction n with
  | zero =>
    intro i vm vm₁ st copies hinv h
    simp only [load_segments, Option.some.injEq, Prod.mk.injEq] at h
    rw [← h.2.1]
    exact hinv
  | succ n ih =>
    intro i vm vm₁ st copies hinv h
    unfold load_segments at h
    split at h
    · exact absurd h (by simp)
    · split at h
      · exact absurd h (by simp)
      · next vm₂ copies₂ hseg =>
        simp only [Option.some.injEq, Prod.mk.injEq] at h
        rw [← h.2.1]
        exact load_segment_inv hinv hseg
      · next vm₂ copies₂ hseg =>
        split at h
        · exact absurd h (by simp)
        · next st₃ vm₃ copies₃ hrec =>
          simp only [Option.some.injEq, Prod.mk.injEq] at h
          rw [← h.2.1]
          exact ih _ _ _ _ _ (load_segment_inv hinv hseg) hrec

theorem load_elf_file_inv {c : Config} {vm vm₁ : VirtualMem} {file : ElfFile}
    {phdrs : List GElf_Phdr} {e_phnum : Nat} {new_ok : Nat → Bool} {st : Bool}
    {copies : List Memcpy} (hinv : vm.Inv)
    (h : load_elf_file c vm file phdrs e_phnum new_ok = some (st, vm₁, copies)) : vm₁.Inv := by
  unfold load_elf_file at h
  split at h
  · simp only [Option.some.injEq, Prod.mk.injEq] at h
    rw [← h.2.1]; exact hinv
  · split at h
    · simp only [Option.some.injEq, Prod.mk.injEq] at h
      rw [← h.2.1]; exact hinv
    · exact load_segments_inv _ _ _ _ _ _ hinv h

theorem read_state {c : Config} {vm vm₁ : VirtualMem} {a w : Nat} {out out₁ : Option Nat}
    {st : Bool} (h : read c vm a w out = some (st, out₁, vm₁)) : vm₁ = vm := by
  unfold read at h
  split at h
  · simp only [Option.some.injEq, Prod.mk.injEq] at h
    exact h.2.2.symm
  · split at h
    · exact absurd h (by simp)
    · split at h
      · simp only [Option.some.injEq, Prod.mk.injEq] at h
        exact h.2.2.symm
      · split at h
        · exact absurd h (by simp)
        · split at h
          · exact absurd h (by simp)
          · split at h <;>
            · simp only [Option.some.injEq, Prod.mk.injEq] at h
              exact h.2.2.symm

theorem write_inv {c : Config} {vm vm₁ : VirtualMem} {a w v : Nat} {new_ok st : Bool}
    (hinv : vm.Inv) (h : write c vm a w v new_ok = some (st, vm₁)) : vm₁.Inv := by
  rcases write_cases h with ⟨p, -, hw⟩ | ⟨-, -, -, rfl⟩ | ⟨-, vm₀, hin, hw⟩
  · exact hinv.sameShape (page_write_sameShape hw)
  · exact hinv
  · exact (hinv.installed hin).sameShape (page_write_sameShape hw)

theorem Reachable.inv {c : Config} {vm : VirtualMem} (h : Reachable c vm) : vm.Inv := by
  induction h with
  | create size => exact VirtualMem.inv_create c size
  | read _ hr ih => rw [read_state hr]; exact ih
  | write _ hw ih => exact write_inv ih hw
  | load _ hl ih => exact load_elf_file_inv ih hl

/-! ## Arithmetic without overflow -/

theorem Config.wf.pow_le {c : Config} (hwf : c.wf) : 2 ^ c.addrBits ≤ sizeMod :=
  Nat.pow_le_pow_right (by norm_num) hwf.2

theorem toVirtAddr_of_lt {c : Config} {x : Nat} (h : x < 2 ^ c.addrBits) : c.toVirtAddr x = x :=
  Nat.mod_eq_of_lt h

theorem seg_addr_of_lt {c : Config} (hwf : c.wf) {s x : Nat} (h : s + x < 2 ^ c.addrBits) :
    seg_addr c s x = s + x := by
  have := hwf.pow_le
  unfold seg_addr
  rw [Nat.mod_eq_of_lt (by omega), toVirtAddr_of_lt h]

/-- The end of the page of a representable address is at most the end of the
address range. -/
theorem page_end_le {c : Config} (hwf : c.wf) {x : Nat} (h : x < 2 ^ c.addrBits) :
    (x / c.kPhysPageSize + 1) * c.kPhysPageSize ≤ 2 ^ c.addrBits := by
  have hP := c.kPhysPageSize_pos
  obtain ⟨t, ht⟩ : c.kPhysPageSize ∣ 2 ^ c.addrBits := Nat.pow_dvd_pow 2 (le_of_lt hwf.1)
  rw [ht]
  have hlt : x / c.kPhysPageSize < t := by
    apply Nat.div_lt_of_lt_mul
    rw [← ht]; exact h
  rw [Nat.mul_comm]
  exact Nat.mul_le_mul_left _ hlt

theorem index_table_add_mul (c : Config) (s k : Nat) :
    index_table c (s + k * c.kPhysPageSize) = s / c.kPhysPageSize + k := by
  rw [index_table_eq_div, Nat.add_mul_div_right _ _ c.kPhysPageSize_pos]

/-- The address of page `k` of a segment, as the loops of the loader compute it,
when page `s / P + k` starts below a representable address `b`. -/
theorem seg_page_addr {c : Config} (hwf : c.wf) {s k b : Nat} (hb : b < 2 ^ c.addrBits)
    (hk : s / c.kPhysPageSize + k ≤ b / c.kPhysPageSize) :
    seg_addr c s (k * c.kPhysPageSize % sizeMod) = s + k * c.kPhysPageSize := by
  have hP := c.kPhysPageSize_pos
  have hpow := hwf.pow_le
  have hend := page_end_le hwf hb
  have hs := Nat.div_add_mod s c.kPhysPageSize
  have hrs := Nat.mod_lt s hP
  have h₁ : (s / c.kPhysPageSize + k + 1) * c.kPhysPageSize
      ≤ (b / c.kPhysPageSize + 1) * c.kPhysPageSize :=
    Nat.mul_le_mul_right _ (by omega)
  have h₂ : (s / c.kPhysPageSize + k + 1) * c.kPhysPageSize
      = c.kPhysPageSize * (s / c.kPhysPageSize) + k * c.kPhysPageSize + c.kPhysPageSize := by
    ring
  have hlt : s + k * c.kPhysPageSize < 2 ^ c.addrBits := by omega
  rw [Nat.mod_eq_of_lt (by omega), seg_addr_of_lt hwf hlt]

/-- The value of `count_pages` on a non-empty range of `size_t` values: the
number of pages between the page of the first and the page of the last byte. -/
theorem count_pages_of_lt (c : Config) (start end_ : Nat)
    (hlt : start < end_) (hend : end_ < sizeMod) :
    count_pages c start end_
      = some ((end_ - 1) / c.kPhysPageSize - start / c.kPhysPageSize + 1) := by
  have hP := c.kPhysPageSize_pos
  by_cases hsame : start / c.kPhysPageSize = end_ / c.kPhysPageSize
  · have h₁ : start / c.kPhysPageSize ≤ (end_ - 1) / c.kPhysPageSize :=
      Nat.div_le_div_right (by omega)
    have h₂ : (end_ - 1) / c.kPhysPageSize ≤ end_ / c.kPhysPageSize :=
      Nat.div_le_div_right (by omega)
    have h₃ : (end_ - 1) / c.kPhysPageSize - start / c.kPhysPageSize + 1 = 1 := by omega
    rw [h₃]
    simp [count_pages, hsame]
  · rw [count_pages_of_ne c start end_ hsame (le_of_lt hlt) hend]
    congr 1
    have hq : start / c.kPhysPageSize < end_ / c.kPhysPageSize :=
      lt_of_le_of_ne (Nat.div_le_div_right (le_of_lt hlt)) hsame
    by_cases hre : end_ % c.kPhysPageSize = 0
    · have hdiv : (end_ - 1) / c.kPhysPageSize = end_ / c.kPhysPageSize - 1 := by
        obtain ⟨q, hq'⟩ := Nat.dvd_of_mod_eq_zero hre
        have hqpos : 0 < q := by
          rcases Nat.eq_zero_or_pos q with h0 | h0
          · rw [h0, Nat.mul_zero] at hq'; omega
          · exact h0
        obtain ⟨r, rfl⟩ : ∃ r, q = r + 1 := ⟨q - 1, by omega⟩
        rw [hq', Nat.mul_div_cancel_left _ hP]
        have : c.kPhysPageSize * (r + 1) - 1 = (c.kPhysPageSize - 1) + c.kPhysPageSize * r := by
          rw [Nat.mul_succ]; omega
        rw [this, Nat.add_mul_div_left _ _ hP, Nat.div_eq_of_lt (by omega)]
        omega
      simp only [hre, ne_eq, not_true_eq_false, if_false]
      rw [hdiv]
      generalize end_ / c.kPhysPageSize = qe at *
      generalize start / c.kPhysPageSize = qs at *
      omega
    · have hdiv : (end_ - 1) / c.kPhysPageSize = end_ / c.kPhysPageSize := by
        have hm := Nat.div_add_mod end_ c.kPhysPageSize
        have hlt' := Nat.mod_lt end_ hP
        have : end_ - 1 = (end_ % c.kPhysPageSize - 1)
            + c.kPhysPageSize * (end_ / c.kPhysPageSize) := by omega
        rw [this, Nat.add_mul_div_left _ _ hP, Nat.div_eq_of_lt (by omega)]
        exact Nat.zero_add _
      simp only [hre, ne_eq, not_false_eq_true, if_true]
      rw [hdiv]
      generalize end_ / c.kPhysPageSize = qe at *
      generalize start / c.kPhysPageSize = qs at *
      omega

/-- After a successful allocation loop over the pages of `[s, s + m)`, every
address of the range is mapped. -/
theorem size_pass_maps_range {c : Config} (hwf : c.wf) {new_ok : Nat → Bool} {s m n : Nat}
    {vm vm₁ : VirtualMem} (hfit : s + m < 2 ^ c.addrBits)
    (hn : count_pages c s (s + m) = some n)
    (h : size_pass c new_ok s n 0 vm = some (true, vm₁)) :
    ∀ b, s ≤ b → b < s + m → ∃ p, vm₁.page_table_[b / c.kPhysPageSize]? = some (some p) := by
  intro b hb₁ hb₂
  have hP := c.kPhysPageSize_pos
  have hpow := hwf.pow_le
  rw [count_pages_of_lt c s (s + m) (by omega) (by omega)] at hn
  simp only [Option.some.injEq] at hn
  have hq₁ : s / c.kPhysPageSize ≤ b / c.kPhysPageSize := Nat.div_le_div_right hb₁
  have hq₂ : b / c.kPhysPageSize ≤ (s + m - 1) / c.kPhysPageSize :=
    Nat.div_le_div_right (by omega)
  obtain ⟨k, hk⟩ : ∃ k, b / c.kPhysPageSize = s / c.kPhysPageSize + k :=
    ⟨b / c.kPhysPageSize - s / c.kPhysPageSize, by omega⟩
  obtain ⟨p, hp⟩ := (size_pass_spec n 0 vm vm₁ true h).2 rfl k (Nat.zero_le _) (by omega)
  rw [seg_page_addr hwf (b := b) (by omega) (by omega), index_table_add_mul, ← hk] at hp
  exact ⟨p, hp⟩

/-! ## Bytes the loader leaves alone -/

theorem zeroHeap_create (c : Config) (virt_mem_size : Nat) :
    ZeroHeap c (VirtualMem.create c virt_mem_size) := by
  intro p page h
  simp [VirtualMem.create] at h

theorem ZeroHeap.of_installed {c : Config} {idx : Nat} {vm₁ vm₂ : VirtualMem}
    (h : ZeroHeap c vm₁) (hin : Installed c idx vm₁ vm₂) : ZeroHeap c vm₂ := by
  intro p page hp
  rw [hin.2.2.2, List.getElem?_append] at hp
  split at hp
  · exact h p page hp
  · next hge =>
    rcases Nat.eq_zero_or_pos (p - vm₁.heap.length) with h0 | h0
    · rw [h0] at hp
      simpa using hp.symm
    · rw [List.getElem?_eq_none (by simp only [List.length_singleton]; omega)] at hp
      exact absurd hp (by simp)

theorem ZeroHeap.of_allocated {c : Config} {vm₁ vm₂ : VirtualMem}
    (h : ZeroHeap c vm₁) (hal : Allocated c vm₁ vm₂) : ZeroHeap c vm₂ := by
  induction hal with
  | refl => exact h
  | step hin _ ih => exact ih (h.of_installed hin)

theorem byte_at_of_slot {c : Config} {vm : VirtualMem} {b q : Nat}
    (h : vm.page_table_[b / c.kPhysPageSize]? = some (some q)) :
    byte_at c vm b = heap_byte vm q (b % c.kPhysPageSize) := by
  rw [← index_table_eq_div] at h
  unfold byte_at heap_byte
  rw [get_phys_addr_of_mapped h]
  simp only [and_kOffsetMask]
  cases vm.heap[q]? <;> rfl

/-- A `memcpy` leaves alone every byte outside its destination range. -/
theorem memcpy_page_heap_byte {vm vm₁ : VirtualMem} {file : ElfFile} {pg : Option Nat}
    {dst src n : Nat} (h : memcpy_page vm file pg dst src n = some vm₁) (q o : Nat)
    (hout : pg ≠ some q ∨ o < dst ∨ dst + n ≤ o) :
    heap_byte vm₁ q o = heap_byte vm q o := by
  obtain ⟨p, page, rfl, hpage, -, -, rfl⟩ := memcpy_page_cases h
  unfold heap_byte
  dsimp only
  by_cases hpq : p = q
  · subst hpq
    have hlt : p < vm.heap.length := by
      by_contra hge
      rw [List.getElem?_eq_none (by omega)] at hpage
      exact absurd hpage (by simp)
    rw [List.getElem?_set_self hlt, hpage]
    simp only [Option.map_some', Option.some.injEq, copyBytes]
    rw [if_neg]
    rintro ⟨h₁, h₂⟩
    rcases hout with h₃ | h₃ | h₃
    · exact h₃ rfl
    · omega
    · omega
  · rw [List.getElem?_set_ne hpq]

/-- The copy loop leaves alone every page that none of its iterations
resolves. -/
theorem copy_loop_heap_byte {c : Config} {file : ElfFile} {pseg_start : Nat} (n : Nat) :
    ∀ (page_idx vpo off : Nat) (vm vm₁ : VirtualMem) (off₁ : Nat) (copies : List Memcpy),
      copy_loop c file pseg_start n page_idx vpo off vm = some (off₁, vm₁, copies) →
      ∀ q : Nat, (∀ k, page_idx ≤ k → k < page_idx + n →
        vm.page_table_[index_table c (seg_addr c pseg_start (k * c.kPhysPageSize % sizeMod))]?
          ≠ some (some q)) →
      ∀ o, heap_byte vm₁ q o = heap_byte vm q o := by
  induction n with
  | zero =>
    intro page_idx vpo off vm vm₁ off₁ copies h q _ o
    simp only [copy_loop, Option.some.injEq, Prod.mk.injEq] at h
    rw [← h.2.1]
  | succ n ih =>
    intro page_idx vpo off vm vm₁ off₁ copies h q hq o
    unfold copy_loop at h
    split at h
    · exact absurd h (by simp)
    · next pa hpa =>
      split at h
      · exact absurd h (by simp)
      · next vm₀ hm =>
        split at h
        · exact absurd h (by simp)
        · next off₂ vm₂ copies₂ hrec =>
          simp only [Option.some.injEq, Prod.mk.injEq] at h
          rw [← h.2.1]
          have hne : pa.page_ ≠ some q := by
            intro e
            rcases get_phys_addr_cases hpa with ⟨-, rfl⟩ | ⟨p, hs, rfl⟩
            · exact absurd e (by simp [PhysAddr.zero])
            · simp only [Option.some.injEq] at e
              subst e
              exact hq page_idx (le_refl _) (by omega) hs
          have sh := memcpy_page_sameShape hm
          rw [ih _ _ _ _ _ _ _ hrec q (fun k hk₁ hk₂ => by
            rw [sh.1]; exact hq k (by omega) (by omega)) o]
          exact memcpy_page_heap_byte hm q o (Or.inl hne)

/-- The copy pass of a segment leaves alone every mapped byte at or after the
end of the on-disk data. -/
theorem copy_pass_tail_frame {c : Config} (hwf : c.wf) {file : ElfFile} {vm vm₂ : VirtualMem}
    {ph : GElf_Phdr} {copies : List Memcpy} (hinv : vm.Inv)
    (hfit : ph.p_vaddr + ph.p_filesz < 2 ^ c.addrBits)
    (h : copy_pass c file vm ph = some (vm₂, copies)) (b q : Nat)
    (hb : ph.p_vaddr + ph.p_filesz ≤ b)
    (hq : vm.page_table_[b / c.kPhysPageSize]? = some (some q)) :
    heap_byte vm₂ q (b % c.kPhysPageSize) = heap_byte vm q (b % c.kPhysPageSize) := by
  have hP := c.kPhysPageSize_pos
  have hpow := hwf.pow_le
  have hs : c.toVirtAddr ph.p_vaddr = ph.p_vaddr := toVirtAddr_of_lt (by omega)
  have he : seg_addr c ph.p_vaddr ph.p_filesz = ph.p_vaddr + ph.p_filesz :=
    seg_addr_of_lt hwf hfit
  have hdb := Nat.div_add_mod b c.kPhysPageSize
  have hds := Nat.div_add_mod ph.p_vaddr c.kPhysPageSize
  have hde := Nat.div_add_mod (ph.p_vaddr + ph.p_filesz) c.kPhysPageSize
  unfold copy_pass at h
  simp only [hs, he] at h
  split at h
  · exact absurd h (by simp)
  · next occ hocc =>
    split at h
    · exact absurd h (by simp)
    · next first hfirst =>
      split at h
      · next hgt =>
        split at h
        · exact absurd h (by simp)
        · next off₁ vm₁ copies₁ hloop =>
          split at h
          · exact absurd h (by simp)
          · next pa hpa =>
            split at h
            · exact absurd h (by simp)
            · next vm₃ hm =>
              simp only [Option.some.injEq, Prod.mk.injEq] at h
              rw [← h.1]
              have sh := copy_loop_sameShape _ _ _ _ _ _ _ _ hloop
              have hne : ph.p_vaddr / c.kPhysPageSize
                  ≠ (ph.p_vaddr + ph.p_filesz) / c.kPhysPageSize := by
                intro e
                simp [count_pages, e] at hocc
                omega
              have hqlt : ph.p_vaddr / c.kPhysPageSize
                  < (ph.p_vaddr + ph.p_filesz) / c.kPhysPageSize :=
                lt_of_le_of_ne (Nat.div_le_div_right (Nat.le_add_right _ _)) hne
              have hqb : (ph.p_vaddr + ph.p_filesz) / c.kPhysPageSize ≤ b / c.kPhysPageSize :=
                Nat.div_le_div_right hb
              rw [count_pages_of_ne c _ _ hne (Nat.le_add_right _ _) (by omega)] at hocc
              simp only [Option.some.injEq] at hocc
              have hocc' : occ - 1 ≤ (ph.p_vaddr + ph.p_filesz) / c.kPhysPageSize
                  - ph.p_vaddr / c.kPhysPageSize := by
                rw [← hocc]
                split <;> omega
              -- the final copy
              have hfinal : heap_byte vm₃ q (b % c.kPhysPageSize)
                  = heap_byte vm₁ q (b % c.kPhysPageSize) := by
                apply memcpy_page_heap_byte hm
                rcases get_phys_addr_cases hpa with ⟨-, rfl⟩ | ⟨p, hsl, rfl⟩
                · exact Or.inl (by simp [PhysAddr.zero])
                · by_cases hpq : p = q
                  · subst hpq
                    right; right
                    rw [sh.1, index_table_eq_div] at hsl
                    have heq := hinv.table_inj _ _ _ hsl hq
                    simp only [and_kOffsetMask]
                    rw [heq] at hde
                    omega
                  · exact Or.inl (by simpa using hpq)
              rw [hfinal]
              -- the loop
              apply copy_loop_heap_byte _ _ _ _ _ _ _ _ hloop
              intro k _ hk hslot
              rw [seg_page_addr hwf hfit (by omega), index_table_add_mul] at hslot
              have := hinv.table_inj _ _ _ hslot hq
              omega
      · next hle =>
        split at h
        · exact absurd h (by simp)
        · next vm₁ hm =>
          simp only [Option.some.injEq, Prod.mk.injEq] at h
          rw [← h.1]
          apply memcpy_page_heap_byte hm
          rcases get_phys_addr_cases hfirst with ⟨-, rfl⟩ | ⟨p, hsl, rfl⟩
          · exact Or.inl (by simp [PhysAddr.zero])
          · by_cases hpq : p = q
            · subst hpq
              right; right
              rw [index_table_eq_div] at hsl
              have heq := hinv.table_inj _ _ _ hsl hq
              simp only [and_kOffsetMask]
              rw [heq] at hds
              omega
            · exact Or.inl (by simpa using hpq)

/-- A successful load of a single program header is a successful run of the
loop body on it. -/
theorem load_single {c : Config} {vm vm₁ : VirtualMem} {file : ElfFile} {ph : GElf_Phdr}
    {new_ok : Nat → Bool} {copies : List Memcpy}
    (h : load_elf_file c vm file [ph] 1 new_ok = some (true, vm₁, copies)) :
    load_segment c file new_ok vm ph = some (true, vm₁, copies) := by
  unfold load_elf_file at h
  split at h
  · exact absurd h (by simp)
  · split at h
    · exact absurd h (by simp)
    · unfold load_segments at h
      simp only [List.getElem?_cons_zero] at h
      split at h
      · exact absurd h (by simp)
      · exact absurd h (by simp)
      · next vm₂ copies₂ hseg =>
        simp only [load_segments, List.append_nil, Option.some.injEq, Prod.mk.injEq] at h
        rw [hseg, h.2.1, h.2.2]

theorem heap_byte_zero {c : Config} {vm : VirtualMem} (hz : ZeroHeap c vm) {q : Nat}
    (hq : q < vm.heap.length) (o : Nat) : heap_byte vm q o = some 0 := by
  unfold heap_byte
  rw [List.getElem?_eq_getElem hq, hz q _ (List.getElem?_eq_getElem hq)]
  rfl

/-! ## The copies of the copy pass -/

theorem count_pages_eq_of_ne (c : Config) (start end_ : Nat)
    (hne : start / c.kPhysPageSize ≠ end_ / c.kPhysPageSize) :
    count_pages c start end_ =
      if count_pages_assert_value c start end_ = 0 then
        some (((if end_ % c.kPhysPageSize ≠ 0 then
              (if start % c.kPhysPageSize ≠ 0 then 1 else 0) + 1
            else (if start % c.kPhysPageSize ≠ 0 then 1 else 0))
          + (count_pages_temp_end c end_ + sizeMod - count_pages_temp_start c start) % sizeMod
            / c.kPhysPageSize) % sizeMod)
      else none := by
  unfold count_pages count_pages_assert_value count_pages_temp_end count_pages_temp_start
  simp only [hne, if_false]

/-- When some pair of `size_t` values lies in different pages, the page size
divides the modulus of `size_t` arithmetic. -/
theorem kPhysPageSize_dvd_sizeMod (c : Config) {start end_ : Nat}
    (hs : start < sizeMod) (he : end_ < sizeMod)
    (hne : start / c.kPhysPageSize ≠ end_ / c.kPhysPageSize) :
    c.kPhysPageSize ∣ sizeMod := by
  by_cases hn : c.kNOffsetBits ≤ 64
  · exact Nat.pow_dvd_pow 2 hn
  · exfalso
    have hlt : sizeMod < c.kPhysPageSize := by
      unfold sizeMod Config.kPhysPageSize
      exact Nat.pow_lt_pow_right (by norm_num) (by omega)
    apply hne
    rw [Nat.div_eq_of_lt (by omega), Nat.div_eq_of_lt (by omega)]

theorem count_pages_assert_holds (c : Config) (start end_ : Nat)
    (hs : start < sizeMod) (he : end_ < sizeMod)
    (hne : start / c.kPhysPageSize ≠ end_ / c.kPhysPageSize) :
    count_pages_assert_value c start end_ = 0 := by
  have hP := c.kPhysPageSize_pos
  have hdvd := kPhysPageSize_dvd_sizeMod c hs he hne
  have hts : c.kPhysPageSize ∣ count_pages_temp_start c start := by
    unfold count_pages_temp_start
    split
    · rw [Nat.dvd_mod_iff hdvd]
      have h₁ := Nat.div_add_mod start c.kPhysPageSize
      have h₂ := Nat.mod_lt start hP
      have : start + (c.kPhysPageSize - start % c.kPhysPageSize)
          = c.kPhysPageSize * (start / c.kPhysPageSize + 1) := by
        rw [Nat.mul_add, Nat.mul_one]; omega
      rw [this]
      exact Nat.dvd_mul_right _ _
    · next h =>
      exact Nat.dvd_of_mod_eq_zero (by simpa using h)
  have hte : c.kPhysPageSize ∣ count_pages_temp_end c end_ := by
    unfold count_pages_temp_end
    split
    · have h₁ := Nat.div_add_mod end_ c.kPhysPageSize
      have : end_ - end_ % c.kPhysPageSize = c.kPhysPageSize * (end_ / c.kPhysPageSize) := by
        omega
      rw [this]
      exact Nat.dvd_mul_right _ _
    · next h =>
      exact Nat.dvd_of_mod_eq_zero (by simpa using h)
  have htslt : count_pages_temp_start c start < sizeMod := by
    unfold count_pages_temp_start
    split
    · exact Nat.mod_lt _ (by unfold sizeMod; positivity)
    · exact hs
  unfold count_pages_assert_value
  apply Nat.mod_eq_zero_of_dvd
  rw [Nat.dvd_mod_iff hdvd]
  exact (Nat.dvd_sub' (Nat.dvd_add hte hdvd) hts)

theorem count_pages_isSome (c : Config) (start end_ : Nat)
    (hs : start < sizeMod) (he : end_ < sizeMod) :
    ∃ n, count_pages c start end_ = some n := by
  by_cases hsame : start / c.kPhysPageSize = end_ / c.kPhysPageSize
  · exact ⟨1, by simp [count_pages, hsame]⟩
  · rw [count_pages_eq_of_ne c start end_ hsame,
      if_pos (count_pages_assert_holds c start end_ hs he hsame)]
    exact ⟨_, rfl⟩

theorem extends_refl (vm : VirtualMem) : Extends vm vm :=
  ⟨rfl, fun _ _ h => h, [], by simp⟩

theorem extends_trans {vm₁ vm₂ vm₃ : VirtualMem} (h₁ : Extends vm₁ vm₂) (h₂ : Extends vm₂ vm₃) :
    Extends vm₁ vm₃ := by
  obtain ⟨l₁, hl₁⟩ := h₁.2.2
  obtain ⟨l₂, hl₂⟩ := h₂.2.2
  exact ⟨h₂.1.trans h₁.1, fun i p h => h₂.2.1 i p (h₁.2.1 i p h), l₁ ++ l₂,
    by rw [hl₂, hl₁, List.append_assoc]⟩

theorem extends_of_sameShape {vm₁ vm₂ : VirtualMem} (h : SameShape vm₁ vm₂) : Extends vm₁ vm₂ :=
  ⟨by rw [h.1], fun i p hp => by rw [h.1]; exact hp, [], by rw [h.2.1]; simp⟩

theorem extends_of_installed {c : Config} {idx : Nat} {vm₁ vm₂ : VirtualMem}
    (h : Installed c idx vm₁ vm₂) : Extends vm₁ vm₂ :=
  ⟨by rw [h.2.1, List.length_set], fun _ _ hp => h.mono hp, [vm₁.heap.length], h.2.2.1⟩

theorem extends_of_allocated {c : Config} {vm₁ vm₂ : VirtualMem} (h : Allocated c vm₁ vm₂) :
    Extends vm₁ vm₂ := by
  induction h with
  | refl => exact extends_refl _
  | step hin _ ih => exact extends_trans (extends_of_installed hin) ih

theorem write_extends {c : Config} {vm vm₁ : VirtualMem} {a w v : Nat} {new_ok st : Bool}
    (h : write c vm a w v new_ok = some (st, vm₁)) : Extends vm vm₁ := by
  rcases write_cases h with ⟨p, -, hw⟩ | ⟨-, -, -, rfl⟩ | ⟨-, vm₀, hin, hw⟩
  · exact extends_of_sameShape (page_write_sameShape hw)
  · exact extends_refl _
  · exact extends_trans (extends_of_installed hin) (extends_of_sameShape (page_write_sameShape hw))

theorem load_segment_extends {c : Config} {file : ElfFile} {new_ok : Nat → Bool}
    {vm vm₂ : VirtualMem} {ph : GElf_Phdr} {st : Bool} {copies : List Memcpy}
    (h : load_segment c file new_ok vm ph = some (st, vm₂, copies)) : Extends vm vm₂ := by
  obtain ⟨n, vm₁, -, hsz, hc⟩ := load_segment_cases h
  have h₁ : Extends vm vm₁ := extends_of_allocated (size_pass_spec n 0 vm vm₁ st hsz).1
  rcases hc with ⟨-, rfl, -⟩ | ⟨-, hcp⟩
  · exact h₁
  · exact extends_trans h₁ (extends_of_sameShape (copy_pass_sameShape hcp))

/-- One iteration of the loop over the program headers, taken apart. -/
theorem load_segments_succ {c : Config} {file : ElfFile} {new_ok : Nat → Bool}
    {phdrs : List GElf_Phdr} {n i : Nat} {vm vm₂ : VirtualMem} {st : Bool}
    {copies : List Memcpy}
    (h : load_segments c file new_ok phdrs (n + 1) i vm = some (st, vm₂, copies)) :
    ∃ ph st₁ vm₁ copies₁, phdrs[i]? = some ph ∧
      load_segment c file new_ok vm ph = some (st₁, vm₁, copies₁) ∧
      ((st₁ = false ∧ st = false ∧ vm₂ = vm₁ ∧ copies = copies₁) ∨
        (st₁ = true ∧ ∃ copies₂,
          load_segments c file new_ok phdrs n (i + 1) vm₁ = some (st, vm₂, copies₂) ∧
          copies = copies₁ ++ copies₂)) := by
  unfold load_segments at h
  split at h
  · exact absurd h (by simp)
  · next ph hph =>
    split at h
    · exact absurd h (by simp)
    · next vm₁ copies₁ hseg =>
      simp only [Option.some.injEq, Prod.mk.injEq] at h
      exact ⟨ph, false, vm₁, copies₁, hph, hseg,
        Or.inl ⟨rfl, h.1.symm, h.2.1.symm, h.2.2.symm⟩⟩
    · next vm₁ copies₁ hseg =>
      split at h
      · exact absurd h (by simp)
      · next st₃ vm₃ copies₃ hrec =>
        simp only [Option.some.injEq, Prod.mk.injEq] at h
        refine ⟨ph, true, vm₁, copies₁, hph, hseg, Or.inr ⟨rfl, copies₃, ?_, h.2.2.symm⟩⟩
        rw [hrec, h.1, h.2.1]

theorem load_segments_extends {c : Config} {file : ElfFile} {new_ok : Nat → Bool}
    {phdrs : List GElf_Phdr} (n : Nat) :
    ∀ (i : Nat) (vm vm₁ : VirtualMem) (st : Bool) (copies : List Memcpy),
      load_segments c file new_ok phdrs n i vm = some (st, vm₁, copies) → Extends vm vm₁ := by
  induction n with
  | zero =>
    intro i vm vm₁ st copies h
    simp only [load_segments, Option.some.injEq, Prod.mk.injEq] at h
    rw [← h.2.1]
    exact extends_refl _
  | succ n ih =>
    intro i vm vm₁ st copies h
    obtain ⟨ph, st₁, vm₀, copies₁, -, hseg, hc⟩ := load_segments_succ h
    rcases hc with ⟨-, -, rfl, -⟩ | ⟨-, copies₂, hrec, -⟩
    · exact load_segment_extends hseg
    · exact extends_trans (load_segment_extends hseg) (ih _ _ _ _ _ hrec)

theorem load_elf_file_extends {c : Config} {vm vm₁ : VirtualMem} {file : ElfFile}
    {phdrs : List GElf_Phdr} {e_phnum : Nat} {new_ok : Nat → Bool} {st : Bool}
    {copies : List Memcpy}
    (h : load_elf_file c vm file phdrs e_phnum new_ok = some (st, vm₁, copies)) :
    Extends vm vm₁ := by
  unfold load_elf_file at h
  split at h
  · simp only [Option.some.injEq, Prod.mk.injEq] at h
    rw [← h.2.1]; exact extends_refl _
  · split at h
    · simp only [Option.some.injEq, Prod.mk.injEq] at h
      rw [← h.2.1]; exact extends_refl _
    · exact load_segments_extends _ _ _ _ _ _ h

/-- An operation that returns, seen as a call of one of the three methods. -/
theorem op_run_cases {c : Config} {vm vm₁ : VirtualMem} {op : Op}
    (h : op.run c vm = some vm₁) :
    (∃ a w out st out₁, read c vm a w out = some (st, out₁, vm₁)) ∨
    (∃ a w v new_ok st, write c vm a w v new_ok = some (st, vm₁)) ∨
    (∃ file phdrs e_phnum new_ok st copies,
      load_elf_file c vm file phdrs e_phnum new_ok = some (st, vm₁, copies)) := by
  cases op with
  | read a w out =>
    simp only [Op.run, Option.map_eq_some'] at h
    obtain ⟨⟨st, out₁, vm₂⟩, hr, rfl⟩ := h
    exact Or.inl ⟨a, w, out, st, out₁, hr⟩
  | write a w v new_ok =>
    simp only [Op.run, Option.map_eq_some'] at h
    obtain ⟨⟨st, vm₂⟩, hr, rfl⟩ := h
    exact Or.inr (Or.inl ⟨a, w, v, new_ok, st, hr⟩)
  | load_elf_file file phdrs e_phnum new_ok =>
    simp only [Op.run, Option.map_eq_some'] at h
    obtain ⟨⟨st, vm₂, copies⟩, hr, rfl⟩ := h
    exact Or.inr (Or.inr ⟨file, phdrs, e_phnum, new_ok, st, copies, hr⟩)

theorem op_run_extends {c : Config} {vm vm₁ : VirtualMem} {op : Op}
    (h : op.run c vm = some vm₁) : Extends vm vm₁ := by
  rcases op_run_cases h with ⟨a, w, out, st, out₁, hr⟩ | ⟨a, w, v, new_ok, st, hw⟩ |
    ⟨file, phdrs, e_phnum, new_ok, st, copies, hl⟩
  · rw [read_state hr]; exact extends_refl _
  · exact write_extends hw
  · exact load_elf_file_extends hl

theorem reachable_of_reachableFrom {c : Config} {S : Nat} {vm : VirtualMem}
    (h : ReachableFrom c S vm) : Reachable c vm := by
  induction h with
  | create => exact Reachable.create S
  | step _ hop ih =>
    rcases op_run_cases hop with ⟨a, w, out, st, out₁, hr⟩ | ⟨a, w, v, new_ok, st, hw⟩ |
      ⟨file, phdrs, e_phnum, new_ok, st, copies, hl⟩
    · exact Reachable.read ih hr
    · exact Reachable.write ih hw
    · exact Reachable.load ih hl

theorem reachableFrom_length {c : Config} {S : Nat} {vm : VirtualMem}
    (h : ReachableFrom c S vm) : vm.page_table_.length = S / c.kPhysPageSize := by
  induction h with
  | create => simp [VirtualMem.create]
  | step _ hop ih => rw [(op_run_extends hop).1, ih]

/-- In a consistent state, `read` at an address whose slot exists returns. -/
theorem read_returns {c : Config} {vm : VirtualMem} (hinv : vm.Inv) {a : Nat}
    (ha : index_table c a < vm.page_table_.length) (w : Nat) (out : Option Nat) :
    ∃ r, read c vm a w out = some r := by
  cases out with
  | none => exact ⟨_, rfl⟩
  | some old =>
    unfold read
    have hslot := List.getElem?_eq_getElem ha
    cases hs : vm.page_table_[index_table c a] with
    | none =>
      rw [hs] at hslot
      simp only [get_phys_addr_of_empty hslot, PhysAddr.is_zero_zero, if_true]
      exact ⟨_, rfl⟩
    | some p =>
      rw [hs] at hslot
      have hp := hinv.table_lt _ _ hslot
      simp only [get_phys_addr_of_mapped hslot, PhysAddr.is_zero_mapped, Bool.false_eq_true,
        if_false, List.getElem?_eq_getElem hp]
      cases (vm.heap[p]).read (a &&& c.kOffsetMask) w <;> exact ⟨_, rfl⟩

/-- In a consistent state, `write` at an address whose slot exists returns. -/
theorem write_returns {c : Config} {vm : VirtualMem} (hinv : vm.Inv) {a : Nat}
    (ha : index_table c a < vm.page_table_.length) (w v : Nat) (new_ok : Bool) :
    ∃ r, write c vm a w v new_ok = some r := by
  unfold write
  have hslot := List.getElem?_eq_getElem ha
  cases hs : vm.page_table_[index_table c a] with
  | none =>
    rw [hs] at hslot
    simp only [get_phys_addr_of_empty hslot, PhysAddr.is_zero_zero, if_true, allocate_page, hslot]
    cases new_ok with
    | false => exact ⟨_, rfl⟩
    | true =>
      simp only [if_true, get_phys_addr, List.getElem?_set_self ha, page_write,
        List.getElem?_concat_length]
      exact ⟨_, rfl⟩
  | some p =>
    rw [hs] at hslot
    have hp := hinv.table_lt _ _ hslot
    simp only [get_phys_addr_of_mapped hslot, PhysAddr.is_zero_mapped, Bool.false_eq_true,
      if_false, page_write, List.getElem?_eq_getElem hp]
    exact ⟨_, rfl⟩

/-- The status and the value of a `read` depend only on the slot of the address
and on the page behind it. -/
theorem read_congr {c : Config} {vm vm₁ : VirtualMem} {b : Nat}
    (hslot : vm₁.page_table_[index_table c b]? = vm.page_table_[index_table c b]?)
    (hpage : ∀ q : Nat, vm.page_table_[index_table c b]? = some (some q) →
      vm₁.heap[q]? = vm.heap[q]?) (w : Nat) (out : Option Nat) :
    (read c vm₁ b w out).map (fun r => (r.1, r.2.1))
      = (read c vm b w out).map (fun r => (r.1, r.2.1)) := by
  cases out with
  | none => rfl
  | some old =>
    unfold read get_phys_addr
    simp only [hslot]
    cases hs : vm.page_table_[index_table c b]? with
    | none => rfl
    | some slot =>
      cases slot with
      | none => simp [PhysAddr.is_zero_zero]
      | some q =>
        simp only [PhysAddr.is_zero_mapped, Bool.false_eq_true, if_false, hpage q hs]
        cases vm.heap[q]? with
        | none => rfl
        | some page =>
          simp only
          cases page.read (b &&& c.kOffsetMask) w <;> rfl

/-- A `write` leaves alone the slots and the pages of the other virtual pages. -/
theorem write_frame_slot {c : Config} {vm vm₁ : VirtualMem} {a w v : Nat} {new_ok st : Bool}
    (hinv : vm.Inv) (h : write c vm a w v new_ok = some (st, vm₁)) {b : Nat}
    (hb : index_table c b ≠ index_table c a) :
    vm₁.page_table_[index_table c b]? = vm.page_table_[index_table c b]? ∧
    ∀ q : Nat, vm.page_table_[index_table c b]? = some (some q) → vm₁.heap[q]? = vm.heap[q]? := by
  rcases write_cases h with ⟨p, hs, hw⟩ | ⟨-, -, -, rfl⟩ | ⟨-, vm₀, hin, hw⟩
  · obtain ⟨p₁, page, hp₁, -, -, rfl⟩ := page_write_cases hw
    simp only [Option.some.injEq] at hp₁
    subst hp₁
    refine ⟨rfl, fun q hq => ?_⟩
    have hne : p ≠ q := fun e => hb (hinv.table_inj _ _ _ hq (e ▸ hs))
    exact List.getElem?_set_ne hne
  · exact ⟨rfl, fun _ _ => rfl⟩
  · obtain ⟨p₁, page, hp₁, -, -, rfl⟩ := page_write_cases hw
    simp only [Option.some.injEq] at hp₁
    subst hp₁
    refine ⟨?_, fun q hq => ?_⟩
    · show vm₀.page_table_[index_table c b]? = _
      rw [hin.2.1, List.getElem?_set_ne (fun e => hb e.symm)]
    · have hlt := hinv.table_lt _ _ hq
      show (vm₀.heap.set vm.heap.length _)[q]? = _
      rw [List.getElem?_set_ne (by omega), hin.2.2.2, List.getElem?_append_left hlt]

/-- After a successful pass over one program header, every address of its
in-memory range is mapped. -/
theorem load_segment_maps_range {c : Config} (hwf : c.wf) {file : ElfFile}
    {new_ok : Nat → Bool} {vm vm₂ : VirtualMem} {ph : GElf_Phdr} {copies : List Memcpy}
    (hfit : ph.p_vaddr + ph.p_memsz < 2 ^ c.addrBits)
    (h : load_segment c file new_ok vm ph = some (true, vm₂, copies)) :
    ∀ b, ph.p_vaddr ≤ b → b < ph.p_vaddr + ph.p_memsz →
      ∃ p, vm₂.page_table_[b / c.kPhysPageSize]? = some (some p) := by
  intro b hb₁ hb₂
  obtain ⟨n, vm₁, hn, hsize, hc⟩ := load_segment_cases h
  rcases hc with ⟨hf, -, -⟩ | ⟨-, hcopy⟩
  · exact absurd hf (by simp)
  rw [toVirtAddr_of_lt (show ph.p_vaddr < 2 ^ c.addrBits by omega),
    toVirtAddr_of_lt (show ph.p_memsz < 2 ^ c.addrBits by omega), toVirtAddr_of_lt hfit] at hn
  rw [toVirtAddr_of_lt (show ph.p_vaddr < 2 ^ c.addrBits by omega)] at hsize
  obtain ⟨p, hp⟩ := size_pass_maps_range hwf hfit hn hsize b hb₁ hb₂
  exact ⟨p, by rw [(copy_pass_sameShape hcopy).1]; exact hp⟩

theorem load_segments_maps_ranges {c : Config} (hwf : c.wf) {file : ElfFile}
    {new_ok : Nat → Bool} {phdrs : List GElf_Phdr} (n : Nat) :
    ∀ (i : Nat) (vm vm₁ : VirtualMem) (copies : List Memcpy),
      load_segments c file new_ok phdrs n i vm = some (true, vm₁, copies) →
      ∀ (j : Nat) (ph : GElf_Phdr), i ≤ j → j < i + n → phdrs[j]? = some ph →
      ph.p_vaddr + ph.p_memsz < 2 ^ c.addrBits →
      ∀ b, ph.p_vaddr ≤ b → b < ph.p_vaddr + ph.p_memsz →
        ∃ p, vm₁.page_table_[b / c.kPhysPageSize]? = some (some p) := by
  induction n with
  | zero => intro i vm vm₁ copies _ j ph h₁ h₂; omega
  | succ n ih =>
    intro i vm vm₁ copies h j ph hj₁ hj₂ hph hfit b hb₁ hb₂
    obtain ⟨ph₀, st₁, vm₀, copies₁, hph₀, hseg, hc⟩ := load_segments_succ h
    rcases hc with ⟨-, hst, -, -⟩ | ⟨hst₁, copies₂, hrec, -⟩
    · exact absurd hst (by simp)
    · subst hst₁
      by_cases hji : j = i
      · subst hji
        rw [hph₀] at hph
        simp only [Option.some.injEq] at hph
        subst hph
        obtain ⟨p, hp⟩ := load_segment_maps_range hwf hfit hseg b hb₁ hb₂
        exact ⟨p, (load_segments_extends _ _ _ _ _ _ hrec).2.1 _ _ hp⟩
      · exact ih _ _ _ _ hrec j ph (by omega) (by omega) hph hfit b hb₁ hb₂

/-- C1 (evaluation of the code at the failing input).  Page size 4096; one
segment with virtual start 0, in-memory size 8193, on-disk size 8192 and file
offset 0, loaded from a file of 8192 bytes, all equal to one, into an empty
address space of 16384 bytes.  The segment meets the conditions of the claim and
`load_elf_file` returns success, but the copy pass performs only a copy of 4096
bytes into the first page and a copy of zero bytes into the page of address
8192: the byte at virtual address 4096 is 0 although the file byte at offset
4096 is 1. -/
theorem aligned_file_end_drops_last_page :
    ∃ vm₁ copies,
      (8192 ≤ 8193 ∧ 0 + 8193 ≤ 16384 ∧ 0 + 8192 ≤ fileTwoPages.st_size) ∧
      load_elf_file cfg4096 (VirtualMem.create cfg4096 16384) fileTwoPages
        [{ p_vaddr := 0, p_memsz := 8193, p_filesz := 8192, p_offset := 0 }] 1 (fun _ => true)
        = some (true, vm₁, copies) ∧
      copies.map (fun m => (m.page, m.dst, m.src, m.len)) = [(0, 0, 0, 4096), (2, 0, 4096, 0)] ∧
      byte_at cfg4096 vm₁ (0 + 4096) = some 0 ∧
      fileTwoPages.data (0 + 4096) = 1 :=
  ⟨_, _, by decide, rfl, by decide, by decide, rfl⟩

/-- C2 (counterexample).  The round trip is not exact for every width and value:
writing the value 256 with width 1 at address 0 succeeds, and the read of width
1 that follows does not yield 256. -/
theorem write_read_not_exact :
    ¬ ∀ (c : Config) (vm vm₁ : VirtualMem) (a w v : Nat) (new_ok : Bool) (old : Nat),
      write c vm a w v new_ok = some (true, vm₁) →
      read c vm₁ a w (some old) = some (true, some v, vm₁) := by
  intro h
  have hw : write cfgSmall (VirtualMem.create cfgSmall 16) 0 1 256 true = some (true, _) := rfl
  have h₁ := h cfgSmall _ _ 0 1 256 true 0 hw
  rw [read_after_write hw 0] at h₁
  simp at h₁

/-- C2 (amended).  If `write(a, w, v)` returns success, then the `read(a, w)`
that follows returns success and yields the `w` low bytes of `v`, that is `v mod
256 ^ w`; it yields exactly `v` whenever `v` fits in `w` bytes.  The address
space is left as the write left it. -/
theorem write_read_round_trip (c : Config) (vm vm₁ : VirtualMem) (a w v : Nat) (new_ok : Bool)
    (old : Nat) (h : write c vm a w v new_ok = some (true, vm₁)) :
    read c vm₁ a w (some old) = some (true, some (v % 256 ^ w), vm₁) ∧
      (v < 256 ^ w → read c vm₁ a w (some old) = some (true, some v, vm₁)) := by
  refine ⟨read_after_write h old, fun hv => ?_⟩
  rw [read_after_write h old, Nat.mod_eq_of_lt hv]

/-- C2 (witness).  A write of two bytes into an empty address space with pages
of four bytes, followed by the read. -/
theorem write_read_round_trip_witness :
    ∃ vm₁, write cfgSmall (VirtualMem.create cfgSmall 16) 5 2 0x1234 true = some (true, vm₁) ∧
      (read cfgSmall vm₁ 5 2 (some 0) = some (true, some (0x1234 % 256 ^ 2), vm₁) ∧
        (0x1234 < 256 ^ 2 → read cfgSmall vm₁ 5 2 (some 0) = some (true, some 0x1234, vm₁))) :=
  ⟨_, rfl, write_read_round_trip cfgSmall (VirtualMem.create cfgSmall 16) _ 5 2 0x1234 true 0 rfl⟩

/-- C3.  For every address space state and every virtual address `a` whose
page-table slot is empty, `get_phys_addr(a)` is the zero sentinel
`PhysAddr(null, 0)`, and `read(a, w, out)` returns failure for every width `w`
and every out-pointer, leaving the register behind the pointer and the whole
address space (page table, ownership list, pages) unchanged. -/
theorem unmapped_read_is_hard_miss (c : Config) (vm : VirtualMem) (a : Nat)
    (h : vm.page_table_[a / c.kPhysPageSize]? = some none) :
    get_phys_addr c vm a = some PhysAddr.zero ∧
      ∀ (w : Nat) (out : Option Nat), read c vm a w out = some (false, out, vm) := by
  rw [← index_table_eq_div] at h
  refine ⟨get_phys_addr_of_empty h, fun w out => ?_⟩
  cases out with
  | none => rfl
  | some old => simp [read, get_phys_addr_of_empty h, PhysAddr.is_zero_zero]

/-- C3 (witness).  Address 5 of a freshly constructed address space of four
pages of four bytes. -/
theorem unmapped_read_is_hard_miss_witness :
    (VirtualMem.create cfgSmall 16).page_table_[5 / cfgSmall.kPhysPageSize]? = some none ∧
    (get_phys_addr cfgSmall (VirtualMem.create cfgSmall 16) 5 = some PhysAddr.zero ∧
      ∀ (w : Nat) (out : Option Nat),
        read cfgSmall (VirtualMem.create cfgSmall 16) 5 w out
          = some (false, out, VirtualMem.create cfgSmall 16)) :=
  ⟨by decide, unmapped_read_is_hard_miss cfgSmall (VirtualMem.create cfgSmall 16) 5 (by decide)⟩

/-- C4 (counterexample).  A failed write can install a page: in an empty address
space with pages of four bytes, the write of two bytes at address 3 allocates
the page of address 3 and then fails the bounds check of the page, so the
ownership list is not the one before the call. -/
theorem failed_write_installs_page :
    ¬ ∀ (c : Config) (vm vm₁ : VirtualMem) (a w v : Nat) (new_ok : Bool),
      write c vm a w v new_ok = some (false, vm₁) →
      vm₁.page_table_ = vm.page_table_ ∧ vm₁.alloc_pages_ = vm.alloc_pages_ := by
  intro h
  have hw : write cfgSmall (VirtualMem.create cfgSmall 16) 3 2 0 true = some (false, _) := rfl
  have h₁ := (h cfgSmall _ _ 3 2 0 true hw).2
  exact absurd h₁ (by decide)

/-- C4 (amended).  If `write(a, w, v)` returns failure, then either the page
table and the ownership list are the same as before the call (this is the case
when the page of `a` was already mapped and when the allocation fails), or the
slot of `a` was empty, the allocation succeeded and the write fails the bounds
check (the page offset of `a` plus `w` exceeds the page size); in that case
exactly the new page has been installed in the slot of `a` and appended to the
ownership list. -/
theorem failed_write_effect (c : Config) (vm vm₁ : VirtualMem) (a w v : Nat) (new_ok : Bool)
    (h : write c vm a w v new_ok = some (false, vm₁)) :
    (vm₁.page_table_ = vm.page_table_ ∧ vm₁.alloc_pages_ = vm.alloc_pages_) ∨
    (vm.page_table_[a / c.kPhysPageSize]? = some none ∧ new_ok = true ∧
      a % c.kPhysPageSize + w > c.kPhysPageSize ∧
      vm₁.page_table_ = vm.page_table_.set (a / c.kPhysPageSize) (some vm.heap.length) ∧
      vm₁.alloc_pages_ = vm.alloc_pages_ ++ [vm.heap.length]) := by
  rcases write_cases h with ⟨p, hs, hw⟩ | ⟨-, -, -, rfl⟩ | ⟨hok, vm₀, hin, hw⟩
  · exact Or.inl ⟨(page_write_sameShape hw).1, (page_write_sameShape hw).2.1⟩
  · exact Or.inl ⟨rfl, rfl⟩
  · right
    have hsh := page_write_sameShape hw
    obtain ⟨q, page, hq, hpage, hst, -⟩ := page_write_cases hw
    simp only [Option.some.injEq] at hq
    subst hq
    rw [hin.2.2.2, List.getElem?_concat_length] at hpage
    simp only [Option.some.injEq] at hpage
    subst hpage
    rw [index_table_eq_div] at hin
    refine ⟨hin.1, hok, ?_, hsh.1.trans hin.2.1, hsh.2.1.trans hin.2.2.1⟩
    by_contra hb
    rw [← and_kOffsetMask] at hb
    simp [PhysPage.write, PhysPage.create, hb] at hst

/-- C4 (witness).  The write of two bytes at address 3 with pages of four bytes.
-/
theorem failed_write_effect_witness :
    ∃ vm₁, write cfgSmall (VirtualMem.create cfgSmall 16) 3 2 0 true = some (false, vm₁) ∧
    ((vm₁.page_table_ = (VirtualMem.create cfgSmall 16).page_table_ ∧
        vm₁.alloc_pages_ = (VirtualMem.create cfgSmall 16).alloc_pages_) ∨
    ((VirtualMem.create cfgSmall 16).page_table_[3 / cfgSmall.kPhysPageSize]? = some none ∧
      true = true ∧ 3 % cfgSmall.kPhysPageSize + 2 > cfgSmall.kPhysPageSize ∧
      vm₁.page_table_ = (VirtualMem.create cfgSmall 16).page_table_.set
        (3 / cfgSmall.kPhysPageSize) (some (VirtualMem.create cfgSmall 16).heap.length) ∧
      vm₁.alloc_pages_ = (VirtualMem.create cfgSmall 16).alloc_pages_ ++
        [(VirtualMem.create cfgSmall 16).heap.length])) :=
  ⟨_, rfl, failed_write_effect cfgSmall (VirtualMem.create cfgSmall 16) _ 3 2 0 true rfl⟩

/-- C6 (counterexample).  With 32-bit addresses and pages of 4096 bytes, a
segment at address 0 with no data on disk and an in-memory size of `2 ^ 32 +
5000` is loaded alone into an empty address space of four pages: the in-memory
size is truncated to 5000 when it is stored in a `VirtAddr`, the size pass maps
two pages, the load returns success, and the byte at address `v_start + 9000`,
inside the memory-only tail, is not mapped. -/
theorem zero_fill_truncated_memory_size :
    ¬ ∀ (c : Config) (virt_mem_size : Nat) (file : ElfFile) (ph : GElf_Phdr)
        (new_ok : Nat → Bool) (vm₁ : VirtualMem) (copies : List Memcpy),
      c.wf → ph.p_filesz < ph.p_memsz →
      load_elf_file c (VirtualMem.create c virt_mem_size) file [ph] 1 new_ok
        = some (true, vm₁, copies) →
      ∀ i, ph.p_filesz ≤ i → i < ph.p_memsz → byte_at c vm₁ (ph.p_vaddr + i) = some 0 := by
  intro h
  obtain ⟨vm₁, copies, hl, hnone⟩ : ∃ vm₁ copies,
      load_elf_file cfg4096 (VirtualMem.create cfg4096 16384) fileNineThousand
        [{ p_vaddr := 0, p_memsz := 2 ^ 32 + 5000, p_filesz := 0, p_offset := 0 }] 1
        (fun _ => true) = some (true, vm₁, copies) ∧
      byte_at cfg4096 vm₁ (0 + 9000) = none := ⟨_, _, rfl, rfl⟩
  have hb := h cfg4096 16384 fileNineThousand
    { p_vaddr := 0, p_memsz := 2 ^ 32 + 5000, p_filesz := 0, p_offset := 0 } (fun _ => true)
    vm₁ copies ⟨by decide, by decide⟩ (by decide) hl 9000 (by decide) (by decide)
  rw [hnone] at hb
  exact absurd hb (by simp)

/-- C6 (amended).  For every segment descriptor with `file_size < mem_size` whose
in-memory range is representable in the address type (`v_start + mem_size < 2 ^
addrBits`, the address type having more bits than a page offset and at most 64),
loaded alone into a freshly constructed (empty) address space: after
`load_elf_file` returns success, every byte at virtual address `v_start + i`
with `file_size ≤ i < mem_size` is mapped and equals zero. -/
theorem zero_fill_of_memory_only_tail (c : Config) (hwf : c.wf) (virt_mem_size : Nat)
    (file : ElfFile) (ph : GElf_Phdr) (new_ok : Nat → Bool) (vm₁ : VirtualMem)
    (copies : List Memcpy)
    (hsz : ph.p_filesz < ph.p_memsz)
    (hfit : ph.p_vaddr + ph.p_memsz < 2 ^ c.addrBits)
    (h : load_elf_file c (VirtualMem.create c virt_mem_size) file [ph] 1 new_ok
      = some (true, vm₁, copies)) :
    ∀ i, ph.p_filesz ≤ i → i < ph.p_memsz → byte_at c vm₁ (ph.p_vaddr + i) = some 0 := by
  intro i hi₁ hi₂
  obtain ⟨n, vm₀, hn, hsize, hc⟩ := load_segment_cases (load_single h)
  rcases hc with ⟨hf, -, -⟩ | ⟨-, hcopy⟩
  · exact absurd hf (by simp)
  rw [toVirtAddr_of_lt (show ph.p_vaddr < 2 ^ c.addrBits by omega),
    toVirtAddr_of_lt (show ph.p_memsz < 2 ^ c.addrBits by omega), toVirtAddr_of_lt hfit] at hn
  rw [toVirtAddr_of_lt (show ph.p_vaddr < 2 ^ c.addrBits by omega)] at hsize
  have hal := (size_pass_spec n 0 _ vm₀ true hsize).1
  have hinv : vm₀.Inv := (VirtualMem.inv_create c virt_mem_size).allocated hal
  have hzero : ZeroHeap c vm₀ := (zeroHeap_create c virt_mem_size).of_allocated hal
  obtain ⟨p, hp⟩ := size_pass_maps_range hwf hfit hn hsize (ph.p_vaddr + i) (by omega) (by omega)
  have sh := copy_pass_sameShape hcopy
  rw [byte_at_of_slot (by rw [sh.1]; exact hp),
    copy_pass_tail_frame hwf hinv (by omega) hcopy (ph.p_vaddr + i) p (by omega) hp]
  exact heap_byte_zero hzero (hinv.table_lt _ _ hp) _

/-- C6 (witness).  A segment at address 2 with five bytes on disk and nine bytes
in memory, pages of four bytes. -/
theorem zero_fill_of_memory_only_tail_witness :
    ∃ vm₁ copies,
      cfgSmall.wf ∧ 5 < 9 ∧ 2 + 9 < 2 ^ cfgSmall.addrBits ∧
      load_elf_file cfgSmall (VirtualMem.create cfgSmall 16) fileOnes
        [{ p_vaddr := 2, p_memsz := 9, p_filesz := 5, p_offset := 3 }] 1 (fun _ => true)
        = some (true, vm₁, copies) ∧
      ∀ i, 5 ≤ i → i < 9 → byte_at cfgSmall vm₁ (2 + i) = some 0 :=
  ⟨_, _, ⟨by decide, by decide⟩, by decide, by decide, rfl,
    zero_fill_of_memory_only_tail cfgSmall ⟨by decide, by decide⟩ 16 fileOnes
      { p_vaddr := 2, p_memsz := 9, p_filesz := 5, p_offset := 3 } (fun _ => true) _ _
      (by decide) (by decide) rfl⟩

/-- C8.  For every `start < end` (with `end` a `size_t` value, so that no
arithmetic overflows), `count_pages(start, end)` returns the number of distinct
pages that contain a byte of `[start, end)`, that is `(end - 1) / page_size -
start / page_size + 1`. -/
theorem count_pages_counts_touched_pages (c : Config) (start end_ : Nat)
    (hlt : start < end_) (hend : end_ < sizeMod) :
    count_pages c start end_
      = some ((end_ - 1) / c.kPhysPageSize - start / c.kPhysPageSize + 1) :=
  count_pages_of_lt c start end_ hlt hend

/-- C8 (witness).  The range from 6144 to 15144 with pages of four bytes. -/
theorem count_pages_counts_touched_pages_witness :
    6144 < 15144 ∧ 15144 < sizeMod ∧
      count_pages cfgSmall 6144 15144
        = some ((15144 - 1) / cfgSmall.kPhysPageSize - 6144 / cfgSmall.kPhysPageSize + 1) :=
  ⟨by decide, by decide,
    count_pages_counts_touched_pages cfgSmall 6144 15144 (by decide) (by decide)⟩

/-- C9 (counterexample).  For `k = 0` the claim fails even when nothing
overflows: `count_pages(0, 0)` returns 1, not 0. -/
theorem count_pages_empty_aligned_range :
    ¬ ∀ (c : Config) (s k : Nat), s % c.kPhysPageSize = 0 → s + k * c.kPhysPageSize < sizeMod →
      count_pages c s (s + k * c.kPhysPageSize) = some k := by
  intro h
  exact absurd (h cfgSmall 0 0 (by decide) (by decide)) (by decide)

/-- C9 (amended).  For every page-aligned `s` and every `k` such that `s + k *
page_size` is a `size_t` value: if `k ≥ 1`, `count_pages(s, s + k * page_size)`
returns `k`; and for `k = 0`, that is on the empty range, `count_pages(s, s + 0
* page_size)` returns 1. -/
theorem count_pages_aligned_whole_pages (c : Config) (s k : Nat)
    (hs : s % c.kPhysPageSize = 0) (hfit : s + k * c.kPhysPageSize < sizeMod) :
    (1 ≤ k → count_pages c s (s + k * c.kPhysPageSize) = some k) ∧
    count_pages c s (s + 0 * c.kPhysPageSize) = some 1 := by
  have hP := c.kPhysPageSize_pos
  refine ⟨fun hk => ?_, by simp [count_pages]⟩
  have hdiv : (s + k * c.kPhysPageSize) / c.kPhysPageSize = s / c.kPhysPageSize + k := by
    rw [Nat.mul_comm k, Nat.add_mul_div_left _ _ hP]
  have hmod : (s + k * c.kPhysPageSize) % c.kPhysPageSize = 0 := by
    rw [Nat.add_mul_mod_self_right, hs]
  rw [count_pages_of_ne c s _ (by rw [hdiv]; omega) (Nat.le_add_right _ _) hfit, hdiv, hmod]
  simp

/-- C9 (witness).  From the page-aligned address 8 on, with pages of four bytes:
three pages are counted as 3, the empty range as 1. -/
theorem count_pages_aligned_whole_pages_witness :
    8 % cfgSmall.kPhysPageSize = 0 ∧ 8 + 3 * cfgSmall.kPhysPageSize < sizeMod ∧ 1 ≤ 3 ∧
      count_pages cfgSmall 8 (8 + 3 * cfgSmall.kPhysPageSize) = some 3 ∧
      count_pages cfgSmall 8 (8 + 0 * cfgSmall.kPhysPageSize) = some 1 :=
  ⟨by decide, by decide, by decide,
    (count_pages_aligned_whole_pages cfgSmall 8 3 (by decide) (by decide)).1 (by decide),
    (count_pages_aligned_whole_pages cfgSmall 8 3 (by decide) (by decide)).2⟩

/-- C10.  In every state reachable from a freshly constructed address space by
calls of `read`, `write` and `load_elf_file`, the pages referenced by non-empty
page-table slots and the entries of the ownership list are in one-to-one
correspondence: the page of every non-empty slot occurs exactly once in the
ownership list, every entry of the ownership list is referenced by exactly one
slot, and no two slots reference the same page. -/
theorem table_ownership_one_to_one (c : Config) (vm : VirtualMem) (h : Reachable c vm) :
    (∀ i p : Nat, vm.page_table_[i]? = some (some p) → vm.alloc_pages_.count p = 1) ∧
    (∀ p : Nat, p ∈ vm.alloc_pages_ → ∃! i : Nat, vm.page_table_[i]? = some (some p)) ∧
    (∀ i j p : Nat, vm.page_table_[i]? = some (some p) →
      vm.page_table_[j]? = some (some p) → i = j) := by
  have hinv := h.inv
  refine ⟨fun i p hp => ?_, fun p hp => ?_, hinv.table_inj⟩
  · rw [hinv.alloc_eq]
    exact List.count_eq_one_of_mem (List.nodup_range _)
      (List.mem_range.mpr (hinv.table_lt i p hp))
  · rw [hinv.alloc_eq, List.mem_range] at hp
    obtain ⟨i, hi⟩ := hinv.table_surj p hp
    exact ⟨i, hi, fun j hj => hinv.table_inj j i p hj hi⟩

/-- C10 (witness).  The state after one write into a freshly constructed address
space of four pages. -/
theorem table_ownership_one_to_one_witness :
    ∃ vm, Reachable cfgSmall vm ∧ vm.page_table_ = [none, some 0, none, none] ∧
      ((∀ i p : Nat, vm.page_table_[i]? = some (some p) → vm.alloc_pages_.count p = 1) ∧
      (∀ p : Nat, p ∈ vm.alloc_pages_ → ∃! i : Nat, vm.page_table_[i]? = some (some p)) ∧
      (∀ i j p : Nat, vm.page_table_[i]? = some (some p) →
        vm.page_table_[j]? = some (some p) → i = j)) :=
  ⟨_, Reachable.write (Reachable.create 16)
      (rfl : write cfgSmall (VirtualMem.create cfgSmall 16) 5 1 7 true = some (true, _)),
    rfl,
    table_ownership_one_to_one cfgSmall _ (Reachable.write (Reachable.create 16)
      (rfl : write cfgSmall (VirtualMem.create cfgSmall 16) 5 1 7 true = some (true, _)))⟩

/-- C11 (evaluation of the code at the failing input).  A failure of `fstat`
makes `load_elf_file` return failure with the address space unchanged, and so
does a `NULL` result of `mmap`.  But `mmap` reports failure by the value
`MAP_FAILED`, which the code does not test: with that result and no program
header the call returns success, and with page size 4096 and one header (virtual
start 0, in-memory size 8192, on-disk size 5000) the size pass allocates two
pages and the copy pass then reads the unmapped buffer, so the call does not
return. -/
theorem mmap_failure_is_not_detected :
    (∀ (c : Config) (vm : VirtualMem) (file : ElfFile) (phdrs : List GElf_Phdr) (e_phnum : Nat)
        (new_ok : Nat → Bool),
      load_elf_file c vm { file with fstat_err := true } phdrs e_phnum new_ok
        = some (false, vm, [])) ∧
    (∀ (c : Config) (vm : VirtualMem) (file : ElfFile) (phdrs : List GElf_Phdr) (e_phnum : Nat)
        (new_ok : Nat → Bool),
      load_elf_file c vm { file with fstat_err := false, mmap_ret := MmapResult.null }
        phdrs e_phnum new_ok = some (false, vm, [])) ∧
    load_elf_file cfg4096 (VirtualMem.create cfg4096 16384) fileMapFailed [] 0 (fun _ => true)
      = some (true, VirtualMem.create cfg4096 16384, []) ∧
    (∃ vm₁,
      size_pass cfg4096 (fun _ => true) 0 2 0 (VirtualMem.create cfg4096 16384)
        = some (true, vm₁) ∧
      vm₁.page_table_ = [some 0, some 1, none, none] ∧ vm₁.alloc_pages_ = [0, 1] ∧
      load_elf_file cfg4096 (VirtualMem.create cfg4096 16384) fileMapFailed
        [{ p_vaddr := 0, p_memsz := 8192, p_filesz := 5000, p_offset := 0 }] 1 (fun _ => true)
        = none) :=
  ⟨fun _ _ _ _ _ _ => rfl, fun _ _ _ _ _ _ => rfl, rfl, _, rfl, rfl, rfl, rfl⟩

/-- C12 (counterexample).  In the configuration `cfgTiny`, where the address
space of 16 bytes covers the whole range of the 4-bit address type, the segment
with virtual start 1 and in-memory size 15 lies inside the address space.  Its
end `1 + 15 = 16` wraps to 0 in a `VirtAddr`, so `count_pages(1, 0)` is 1 and
the size pass maps the page of address 1 only: the load returns success and
address 8, inside the range, resolves to the zero sentinel. -/
theorem size_pass_wraps_at_top_of_range :
    ¬ ∀ (c : Config) (virt_mem_size : Nat) (file : ElfFile) (phdrs : List GElf_Phdr)
        (e_phnum : Nat) (new_ok : Nat → Bool) (vm₁ : VirtualMem) (copies : List Memcpy)
        (j : Nat) (ph : GElf_Phdr),
      c.wf → virt_mem_size % c.kPhysPageSize = 0 →
      load_elf_file c (VirtualMem.create c virt_mem_size) file phdrs e_phnum new_ok
        = some (true, vm₁, copies) →
      j < e_phnum → phdrs[j]? = some ph → 0 < ph.p_memsz →
      ph.p_vaddr + ph.p_memsz ≤ virt_mem_size →
      ∀ b, ph.p_vaddr ≤ b → b < ph.p_vaddr + ph.p_memsz →
        ∃ phys_addr, get_phys_addr c vm₁ b = some phys_addr ∧ phys_addr.is_zero = false := by
  intro h
  obtain ⟨vm₁, copies, hl, hzero⟩ : ∃ vm₁ copies,
      load_elf_file cfgTiny (VirtualMem.create cfgTiny 16) fileOnes
        [{ p_vaddr := 1, p_memsz := 15, p_filesz := 0, p_offset := 0 }] 1 (fun _ => true)
        = some (true, vm₁, copies) ∧
      get_phys_addr cfgTiny vm₁ 8 = some PhysAddr.zero := ⟨_, _, rfl, rfl⟩
  obtain ⟨phys_addr, hpa, hz⟩ := h cfgTiny 16 fileOnes
    [{ p_vaddr := 1, p_memsz := 15, p_filesz := 0, p_offset := 0 }] 1 (fun _ => true) vm₁
    copies 0 { p_vaddr := 1, p_memsz := 15, p_filesz := 0, p_offset := 0 }
    ⟨by decide, by decide⟩ (by decide) hl (by decide) rfl (by decide) (by decide) 8
    (by decide) (by decide)
  rw [hzero] at hpa
  simp only [Option.some.injEq] at hpa
  rw [← hpa] at hz
  exact absurd hz (by decide)

/-- C12 (amended).  For every descriptor list and every descriptor in it (one of
the `e_phnum` headers the call processes) whose range `[v_start, v_start +
mem_size)` ends below the top of the address type (`v_start + mem_size < 2 ^
addrBits`, the address type having more bits than a page offset and at most
64): after `load_elf_file` returns success, every virtual address of the range
resolves to a mapped page, that is `get_phys_addr` returns a non-null page with
the offset of the address and not the zero sentinel.  The initial state, the
file and the allocation outcomes are arbitrary. -/
theorem size_pass_covers_memory_extent (c : Config) (hwf : c.wf) (vm vm₁ : VirtualMem)
    (file : ElfFile) (phdrs : List GElf_Phdr) (e_phnum : Nat) (new_ok : Nat → Bool)
    (copies : List Memcpy) (j : Nat) (ph : GElf_Phdr)
    (h : load_elf_file c vm file phdrs e_phnum new_ok = some (true, vm₁, copies))
    (hj : j < e_phnum) (hph : phdrs[j]? = some ph)
    (hfit : ph.p_vaddr + ph.p_memsz < 2 ^ c.addrBits) :
    ∀ b, ph.p_vaddr ≤ b → b < ph.p_vaddr + ph.p_memsz →
      ∃ p, get_phys_addr c vm₁ b = some { page_ := some p, offset_ := b % c.kPhysPageSize } ∧
        PhysAddr.is_zero { page_ := some p, offset_ := b % c.kPhysPageSize } = false := by
  intro b hb₁ hb₂
  have hsegs : load_segments c file new_ok phdrs e_phnum 0 vm = some (true, vm₁, copies) := by
    unfold load_elf_file at h
    split at h
    · exact absurd h (by simp)
    · split at h
      · exact absurd h (by simp)
      · exact h
  obtain ⟨p, hp⟩ := load_segments_maps_ranges hwf e_phnum 0 vm vm₁ copies hsegs j ph
    (Nat.zero_le _) (by omega) hph hfit b hb₁ hb₂
  rw [← index_table_eq_div] at hp
  refine ⟨p, ?_, PhysAddr.is_zero_mapped _ _⟩
  rw [get_phys_addr_of_mapped hp, and_kOffsetMask]

/-- C12 (witness).  Two segments loaded into an empty address space of four
pages of four bytes; the range of the first one. -/
theorem size_pass_covers_memory_extent_witness :
    ∃ vm₁ copies,
      cfgSmall.wf ∧
      load_elf_file cfgSmall (VirtualMem.create cfgSmall 16) fileCounting
        [{ p_vaddr := 2, p_memsz := 9, p_filesz := 5, p_offset := 3 },
         { p_vaddr := 13, p_memsz := 2, p_filesz := 2, p_offset := 0 }] 2 (fun _ => true)
        = some (true, vm₁, copies) ∧
      0 < 2 ∧
      [({ p_vaddr := 2, p_memsz := 9, p_filesz := 5, p_offset := 3 } : GElf_Phdr),
         { p_vaddr := 13, p_memsz := 2, p_filesz := 2, p_offset := 0 }][0]?
        = some { p_vaddr := 2, p_memsz := 9, p_filesz := 5, p_offset := 3 } ∧
      2 + 9 < 2 ^ cfgSmall.addrBits ∧
      ∀ b, 2 ≤ b → b < 2 + 9 →
        ∃ p, get_phys_addr cfgSmall vm₁ b
            = some { page_ := some p, offset_ := b % cfgSmall.kPhysPageSize } ∧
          PhysAddr.is_zero { page_ := some p, offset_ := b % cfgSmall.kPhysPageSize } = false :=
  ⟨_, _, ⟨by decide, by decide⟩, rfl, by decide, rfl, by decide,
    size_pass_covers_memory_extent cfgSmall ⟨by decide, by decide⟩
      (VirtualMem.create cfgSmall 16) _ fileCounting
      [{ p_vaddr := 2, p_memsz := 9, p_filesz := 5, p_offset := 3 },
       { p_vaddr := 13, p_memsz := 2, p_filesz := 2, p_offset := 0 }] 2 (fun _ => true) _ 0
      { p_vaddr := 2, p_memsz := 9, p_filesz := 5, p_offset := 3 } rfl (by decide) rfl
      (by decide)⟩

/-- C13 (evaluation of the code at the failing input).  Page size 4096, empty
address space of 16384 bytes, one segment with virtual start 0 and in-memory
size and on-disk size 8192, file of 8192 bytes.  The size pass maps the pages of
slots 0 and 1; the copy pass counts two pages, copies the first one in its loop
and then resolves `v_start + file_size = 8192` for the final copy: the slot of
that address is empty, `get_phys_addr` returns the zero sentinel and the
`memcpy` through its null page does not return. -/
theorem final_copy_resolves_unmapped_page :
    ∃ vm₁ off vm₂ copies,
      (8192 ≤ 8192 ∧ 0 + 8192 ≤ 16384 ∧ 0 + 8192 ≤ fileTwoPages.st_size) ∧
      size_pass cfg4096 (fun _ => true) 0 2 0 (VirtualMem.create cfg4096 16384)
        = some (true, vm₁) ∧
      vm₁.page_table_ = [some 0, some 1, none, none] ∧
      count_pages cfg4096 0 (seg_addr cfg4096 0 8192) = some 2 ∧
      copy_loop cfg4096 fileTwoPages 0 1 0 0 0 vm₁ = some (off, vm₂, copies) ∧
      get_phys_addr cfg4096 vm₂ (seg_addr cfg4096 0 8192) = some PhysAddr.zero ∧
      memcpy_page vm₂ fileTwoPages PhysAddr.zero.page_ 0 off PhysAddr.zero.offset_ = none ∧
      load_elf_file cfg4096 (VirtualMem.create cfg4096 16384) fileTwoPages
        [{ p_vaddr := 0, p_memsz := 8192, p_filesz := 8192, p_offset := 0 }] 1 (fun _ => true)
        = none :=
  ⟨_, _, _, _, by decide, rfl, rfl, by decide, rfl, rfl, rfl, rfl⟩

/-- C15.  For every address space state and every operation (`read`, `write`,
`load_elf_file`, with any arguments and any status) that returns: every
page-table slot that was non-empty before the operation holds the same page
afterwards, and the ownership list afterwards is the one before with entries
appended. -/
theorem allocated_pages_grow_monotonically (c : Config) (vm vm₁ : VirtualMem) (op : Op)
    (h : op.run c vm = some vm₁) :
    (∀ i p : Nat, vm.page_table_[i]? = some (some p) → vm₁.page_table_[i]? = some (some p)) ∧
    ∃ l, vm₁.alloc_pages_ = vm.alloc_pages_ ++ l :=
  (op_run_extends h).2

/-- C15 (witness).  Two writes into different pages of an empty address space of
four pages. -/
theorem allocated_pages_grow_monotonically_witness :
    ∃ vm vm₁,
      (Op.write 5 1 7 true).run cfgSmall (VirtualMem.create cfgSmall 16) = some vm ∧
      (Op.write 9 1 3 true).run cfgSmall vm = some vm₁ ∧
      vm.page_table_ = [none, some 0, none, none] ∧
      vm₁.page_table_ = [none, some 0, some 1, none] ∧
      ((∀ i p : Nat, vm.page_table_[i]? = some (some p) →
          vm₁.page_table_[i]? = some (some p)) ∧
        ∃ l, vm₁.alloc_pages_ = vm.alloc_pages_ ++ l) :=
  ⟨_, _, rfl, rfl, rfl, rfl,
    allocated_pages_grow_monotonically cfgSmall _ _ (Op.write 9 1 3 true) rfl⟩

/-- C16.  For every virtual address `a` and page size `P = 2 ^ n` with mask `P -
1`: `a & (P - 1) = a mod P`, the index `(a - offset) >> n` equals `a / P`, `a =
index * P + offset` and `offset < P`; and whenever `get_phys_addr(a)` returns a
non-null page, that page is the one in slot `a / P` and the offset returned is
`a mod P`, strictly less than the page size. -/
theorem address_decomposition (c : Config) (a : Nat) :
    a &&& c.kOffsetMask = a % c.kPhysPageSize ∧
    index_table c a = a / c.kPhysPageSize ∧
    a = index_table c a * c.kPhysPageSize + (a &&& c.kOffsetMask) ∧
    (a &&& c.kOffsetMask) < c.kPhysPageSize ∧
    ∀ (vm : VirtualMem) (phys_addr : PhysAddr) (p : Nat),
      get_phys_addr c vm a = some phys_addr → phys_addr.page_ = some p →
      vm.page_table_[a / c.kPhysPageSize]? = some (some p) ∧
        phys_addr.offset_ = a % c.kPhysPageSize ∧ phys_addr.offset_ < c.kPhysPageSize := by
  have hP := c.kPhysPageSize_pos
  refine ⟨and_kOffsetMask c a, index_table_eq_div c a, ?_, ?_, ?_⟩
  · rw [and_kOffsetMask, index_table_eq_div, Nat.mul_comm]
    exact (Nat.div_add_mod a c.kPhysPageSize).symm
  · rw [and_kOffsetMask]
    exact Nat.mod_lt _ hP
  · intro vm phys_addr p h hp
    rcases get_phys_addr_cases h with ⟨-, rfl⟩ | ⟨q, hs, rfl⟩
    · exact absurd hp (by simp [PhysAddr.zero])
    · simp only [Option.some.injEq] at hp
      subst hp
      rw [index_table_eq_div] at hs
      refine ⟨hs, and_kOffsetMask c a, ?_⟩
      show (a &&& c.kOffsetMask) < c.kPhysPageSize
      rw [and_kOffsetMask]
      exact Nat.mod_lt _ hP

/-- C16 (witness).  Address 0x1804 with pages of 4096 bytes, after a write has
mapped its page. -/
theorem address_decomposition_witness :
    ∃ vm phys_addr,
      write cfg4096 (VirtualMem.create cfg4096 16384) 0x1804 4 7 true = some (true, vm) ∧
      get_phys_addr cfg4096 vm 0x1804 = some phys_addr ∧ phys_addr.page_ = some 0 ∧
      (vm.page_table_[0x1804 / cfg4096.kPhysPageSize]? = some (some 0) ∧
        phys_addr.offset_ = 0x1804 % cfg4096.kPhysPageSize ∧
        phys_addr.offset_ < cfg4096.kPhysPageSize) :=
  ⟨_, _, rfl, rfl, rfl, (address_decomposition cfg4096 0x1804).2.2.2.2 _ _ 0 rfl rfl⟩

/-- C17.  For every reachable address space state, every `write(a, w, v)` that
returns (with either status) and every virtual address `b` in a different page
from `a`: the slot of `b` is unchanged, the page it references has the same
contents, and `read(b, w')` returns the same status and the same value before
and after the write (or fails to return in both states). -/
theorem write_frame (c : Config) (vm vm₁ : VirtualMem) (a w v b : Nat) (new_ok st : Bool)
    (hr : Reachable c vm) (h : write c vm a w v new_ok = some (st, vm₁))
    (hb : b / c.kPhysPageSize ≠ a / c.kPhysPageSize) :
    vm₁.page_table_[b / c.kPhysPageSize]? = vm.page_table_[b / c.kPhysPageSize]? ∧
    (∀ q : Nat, vm.page_table_[b / c.kPhysPageSize]? = some (some q) →
      vm₁.heap[q]? = vm.heap[q]?) ∧
    ∀ (w₁ : Nat) (out : Option Nat),
      (read c vm₁ b w₁ out).map (fun r => (r.1, r.2.1))
        = (read c vm b w₁ out).map (fun r => (r.1, r.2.1)) := by
  rw [← index_table_eq_div, ← index_table_eq_div] at hb
  rw [← index_table_eq_div]
  obtain ⟨h₁, h₂⟩ := write_frame_slot hr.inv h hb
  exact ⟨h₁, h₂, read_congr h₁ h₂⟩

/-- C17 (witness).  A write at address 5 in a state where the page of address 9
is mapped, pages of four bytes. -/
theorem write_frame_witness :
    ∃ vm vm₁,
      write cfgSmall (VirtualMem.create cfgSmall 16) 9 1 3 true = some (true, vm) ∧
      Reachable cfgSmall vm ∧
      write cfgSmall vm 5 1 7 true = some (true, vm₁) ∧
      9 / cfgSmall.kPhysPageSize ≠ 5 / cfgSmall.kPhysPageSize ∧
      (vm₁.page_table_[9 / cfgSmall.kPhysPageSize]? = vm.page_table_[9 / cfgSmall.kPhysPageSize]? ∧
      (∀ q : Nat, vm.page_table_[9 / cfgSmall.kPhysPageSize]? = some (some q) →
        vm₁.heap[q]? = vm.heap[q]?) ∧
      ∀ (w₁ : Nat) (out : Option Nat),
        (read cfgSmall vm₁ 9 w₁ out).map (fun r => (r.1, r.2.1))
          = (read cfgSmall vm 9 w₁ out).map (fun r => (r.1, r.2.1))) :=
  ⟨_, _, rfl, Reachable.write (Reachable.create 16)
      (rfl : write cfgSmall (VirtualMem.create cfgSmall 16) 9 1 3 true = some (true, _)),
    rfl, by decide,
    write_frame cfgSmall _ _ 5 1 7 9 true true
      (Reachable.write (Reachable.create 16)
        (rfl : write cfgSmall (VirtualMem.create cfgSmall 16) 9 1 3 true = some (true, _)))
      rfl (by decide)⟩

/-- C18.  For all `size_t` values `start` and `end` (also with `start > end`)
and every page size `2 ^ n`: whenever `start` and `end` are not in the same
page, the asserted expression `(temp_end - temp_start) mod page_size`, computed
modulo `2 ^ 64`, is zero; so `count_pages` always returns a value. -/
theorem count_pages_assertion_never_fails (c : Config) (start end_ : Nat)
    (hs : start < sizeMod) (he : end_ < sizeMod) :
    (start / c.kPhysPageSize ≠ end_ / c.kPhysPageSize →
      count_pages_assert_value c start end_ = 0) ∧
    ∃ n, count_pages c start end_ = some n :=
  ⟨count_pages_assert_holds c start end_ hs he, count_pages_isSome c start end_ hs he⟩

/-- C18 (witness).  The call `count_pages(9, 2)` with pages of four bytes. -/
theorem count_pages_assertion_never_fails_witness :
    9 < sizeMod ∧ 2 < sizeMod ∧
    ((9 / cfgSmall.kPhysPageSize ≠ 2 / cfgSmall.kPhysPageSize →
        count_pages_assert_value cfgSmall 9 2 = 0) ∧
      ∃ n, count_pages cfgSmall 9 2 = some n) :=
  ⟨by decide, by decide, count_pages_assertion_never_fails cfgSmall 9 2 (by decide) (by decide)⟩

/-- C19.  For an address space constructed with a size `S` that is a multiple of
the page size, in every state it reaches: the table has `S / page_size` slots,
and for every virtual address `a < S` the index computed by `get_phys_addr` and
`allocate_page` is less than the table length, so that `get_phys_addr`,
`allocate_page`, `read` and `write` at `a` all return. -/
theorem page_table_indexing_in_bounds (c : Config) (S : Nat) (vm : VirtualMem)
    (hS : S % c.kPhysPageSize = 0) (h : ReachableFrom c S vm) :
    vm.page_table_.length = S / c.kPhysPageSize ∧
    ∀ a, a < S →
      index_table c a < vm.page_table_.length ∧
      (∃ phys_addr, get_phys_addr c vm a = some phys_addr) ∧
      (∀ new_ok, ∃ r, allocate_page c vm a new_ok = some r) ∧
      (∀ w out, ∃ r, read c vm a w out = some r) ∧
      (∀ w v new_ok, ∃ r, write c vm a w v new_ok = some r) := by
  have hlen := reachableFrom_length h
  have hinv := (reachable_of_reachableFrom h).inv
  refine ⟨hlen, fun a ha => ?_⟩
  have hidx : index_table c a < vm.page_table_.length := by
    rw [index_table_eq_div, hlen]
    obtain ⟨t, ht⟩ := Nat.dvd_of_mod_eq_zero hS
    rw [ht, Nat.mul_div_cancel_left _ c.kPhysPageSize_pos]
    exact Nat.div_lt_of_lt_mul (ht ▸ ha)
  have hslot := List.getElem?_eq_getElem hidx
  refine ⟨hidx, ?_, fun new_ok => ?_, read_returns hinv hidx, write_returns hinv hidx⟩
  · unfold get_phys_addr
    rw [hslot]
    cases vm.page_table_[index_table c a] <;> exact ⟨_, rfl⟩
  · unfold allocate_page
    rw [hslot]
    cases vm.page_table_[index_table c a] with
    | none => cases new_ok <;> exact ⟨_, rfl⟩
    | some p => exact ⟨_, rfl⟩

/-- C19 (witness).  The state after one write into an address space of 16 bytes
with pages of four bytes. -/
theorem page_table_indexing_in_bounds_witness :
    ∃ vm, 16 % cfgSmall.kPhysPageSize = 0 ∧ ReachableFrom cfgSmall 16 vm ∧
      vm.page_table_ = [none, some 0, none, none] ∧
      (vm.page_table_.length = 16 / cfgSmall.kPhysPageSize ∧
      ∀ a, a < 16 →
        index_table cfgSmall a < vm.page_table_.length ∧
        (∃ phys_addr, get_phys_addr cfgSmall vm a = some phys_addr) ∧
        (∀ new_ok, ∃ r, allocate_page cfgSmall vm a new_ok = some r) ∧
        (∀ w out, ∃ r, read cfgSmall vm a w out = some r) ∧
        (∀ w v new_ok, ∃ r, write cfgSmall vm a w v new_ok = some r)) :=
  ⟨_, by decide,
    ReachableFrom.step ReachableFrom.create
      (rfl : (Op.write 5 1 7 true).run cfgSmall (VirtualMem.create cfgSmall 16) = some _),
    rfl,
    page_table_indexing_in_bounds cfgSmall 16 _ (by decide)
      (ReachableFrom.step ReachableFrom.create
        (rfl : (Op.write 5 1 7 true).run cfgSmall (VirtualMem.create cfgSmall 16) = some _))⟩

end risc
